import Mathlib

/-!
Shallow embedding of the json-to-terraform core: the graph model
(`internal/diagram`), the dependency resolver (`internal/dependency`),
the handler registry contract (`internal/registry`), the output builder
(`internal/terraform`) and the tiered execution engine
(`internal/parser`), together with proofs of the specified properties.

Go maps have an unspecified iteration order; wherever the source ranges
over a map (the `nodeSet` map in `dependency.Resolve`) the embedding
takes the iteration order as an explicit parameter `enum`, constrained
in theorems to be an enumeration (duplicate-free, same members) of the
node-id set.  Likewise the per-tier goroutine completion order in
`parser.Parse` is a parameter `sched`.  Byte slices are modelled as
`String` (Go `[]byte` holding UTF-8 text).
-/

namespace JsonToTerraform

/-- A JSON-like property value (Go `any` as decoded from diagram JSON).
The engine core never inspects property values; handlers do. -/
inductive PropValue where
  | str (s : String)
  | boolean (b : Bool)
  | num (n : Int)
  | obj (m : List (String × PropValue))
  | null
deriving Repr

/-- Go `map[string]any` for node/edge properties, as an association list. -/
abbrev Properties := List (String × PropValue)

/-- Go `diagram.Metadata`: diagram-level information. -/
structure Metadata where
  version : String
  name : String
  description : String
  environment : String
deriving Repr

/-- Go `diagram.Position`: x,y coordinates used only by the diagram UI. -/
structure Position where
  x : Float
  y : Float

/-- Go `diagram.Node`: a single resource in the diagram.  The Go field
`Type` is `typ` here (`type` is a Lean keyword). -/
structure Node where
  id : String
  typ : String
  label : String
  position : Position
  properties : Properties

/-- Go `diagram.Edge`: a relationship between two nodes. -/
structure Edge where
  id : String
  source : String
  target : String
  typ : String
  properties : Properties

/-- Go `diagram.Diagram`: root structure of the infrastructure diagram. -/
structure Diagram where
  metadata : Metadata
  nodes : List Node
  edges : List Edge

/-- Go `result.Error` (also covers `diagram.ValidationError`, which has the
same fields): a validation or generation error. -/
structure Error where
  typ : String
  severity : String
  nodeID : String
  message : String
  suggestion : String
deriving Repr, DecidableEq

/-- Go `result.Warning`: a best-practice or non-fatal warning. -/
structure Warning where
  typ : String
  severity : String
  nodeID : String
  message : String
  suggestion : String
deriving Repr, DecidableEq

/-- Go `result.ParseResult`: outcome of one `Parse` invocation.  The Go
field `TerraformFiles` is a `map[string][]byte`; it is modelled as an
association list in the builder's insertion order (nil map = `[]`). -/
structure ParseResult where
  success : Bool
  terraformFiles : List (String × String)
  errors : List Error
  warnings : List Warning

/-! ## `internal/diagram`: schema validation (`diagram.Validate`) -/

/-- One step of the node-validation loop in `diagram.Validate`:
accumulates (errors so far, ids seen so far) over `(index, node)`.
The Go loop also defaults `n.Properties` to an empty map, a mutation
with no observable effect on the embedded engine. -/
def validateNodeStep (acc : List Error × List String) (ixn : Nat × Node) :
    List Error × List String :=
  let (errs, seen) := acc
  let (i, n) := ixn
  let (errs, seen) :=
    if n.id = "" then
      (errs ++ [⟨"schema_error", "error", n.id,
        "node at index " ++ toString i ++ " has empty id", "Set node.id"⟩], seen)
    else if seen.contains n.id then
      (errs ++ [⟨"schema_error", "error", n.id,
        "duplicate node id: " ++ n.id, "Use unique ids for each node"⟩], seen)
    else
      (errs, seen ++ [n.id])
  if n.typ = "" then
    (errs ++ [⟨"schema_error", "error", n.id,
      "node.type is required", "Set node.type (e.g. ec2_instance, vpc)"⟩], seen)
  else
    (errs, seen)

/-- One step of the edge-validation loop in `diagram.Validate`.  The Go
loop also defaults `e.Type` to `"depends_on"`, a mutation the embedded
engine never observes (edge kind does not affect topology). -/
def validateEdgeStep (seen : List String) (errs : List Error) (ixe : Nat × Edge) :
    List Error :=
  let (i, e) := ixe
  if e.source = "" ∨ e.target = "" then
    errs ++ [⟨"schema_error", "error", "",
      "edge at index " ++ toString i ++ " must have source and target",
      "Set edge.source and edge.target to node ids"⟩]
  else if ¬ seen.contains e.source then
    errs ++ [⟨"schema_error", "error", "",
      "edge source node not found: " ++ e.source, "Reference an existing node id"⟩]
  else if ¬ seen.contains e.target then
    errs ++ [⟨"schema_error", "error", "",
      "edge target node not found: " ++ e.target, "Reference an existing node id"⟩]
  else
    errs

/-- Go `diagram.Validate`: checks required fields and structure of the
diagram (nil diagram, metadata version, node ids/types, edge endpoints). -/
def Validate (od : Option Diagram) : List Error :=
  match od with
  | none => [⟨"schema_error", "error", "", "diagram is nil", ""⟩]
  | some d =>
    let errs : List Error :=
      if d.metadata.version = "" then
        [⟨"schema_error", "error", "",
          "metadata.version is required", "Set metadata.version (e.g. \"1.0\")"⟩]
      else []
    let (errs, seen) := d.nodes.enum.foldl validateNodeStep (errs, [])
    d.edges.enum.foldl (validateEdgeStep seen) errs

/-! ## `internal/dependency`: the resolver (`dependency.Resolve`) -/

/-- The node ids of a diagram, in declaration order (with duplicates if
the diagram is invalid).  `nodeSet` in the Go source is the set of these. -/
def ids (d : Diagram) : List String := d.nodes.map Node.id

/-- Membership in the Go `nodeSet` map (`nodeSet[v]`). -/
def memberId (d : Diagram) (v : String) : Bool := d.nodes.any fun n => n.id == v

/-- The in-degree map after the counting loop of `dependency.Resolve`:
start every id at 0, then bump `inDegree[e.Target]` for each edge whose
source and target both exist and which is not a self-loop.  Reads of
absent keys yield 0, as for a Go map of `int`. -/
def initialInDegree (d : Diagram) : String → Int :=
  d.edges.foldl
    (fun f e =>
      if memberId d e.source && memberId d e.target && e.source != e.target then
        fun x => if x == e.target then f x + 1 else f x
      else f)
    (fun _ => 0)

/-- The inner edge loop of `dependency.Resolve` for one dequeued node
`u`: for each edge out of `u` whose target exists, decrement the
target's in-degree and enqueue the target if it just reached zero.
State is (in-degree map, nextQueue). -/
def procEdge (d : Diagram) (u : String) (st : (String → Int) × List String)
    (e : Edge) : (String → Int) × List String :=
  if e.source != u then st
  else if !(memberId d e.target) then st
  else
    let f : String → Int := fun x => if x == e.target then st.1 x - 1 else st.1 x
    if f e.target == 0 then (f, st.2 ++ [e.target]) else (f, st.2)

/-- Processing one node `u` of the current tier: append `u` to
`ordered`, then run the edge loop.  State is (ordered, in-degree map,
nextQueue). -/
def procNode (d : Diagram) (st : List String × (String → Int) × List String)
    (u : String) : List String × (String → Int) × List String :=
  let st2 := d.edges.foldl (procEdge d u) (st.2.1, st.2.2)
  (st.1 ++ [u], st2.1, st2.2)

/-- The outer `for len(queue) > 0` loop of `dependency.Resolve`.  The Go
loop is unbounded; here it carries fuel, shown adequate below
(each iteration with a non-empty queue processes at least one
never-before-processed node, so `|nodeSet| + 1` rounds always reach an
empty queue). -/
def resolveLoop (d : Diagram) :
    Nat → List String → List String → List (List String) → (String → Int) →
    List String × List (List String)
  | 0, _, ordered, tiers, _ => (ordered, tiers)
  | Nat.succ fuel, queue, ordered, tiers, inDeg =>
    if queue.isEmpty then (ordered, tiers)
    else
      let st := queue.foldl (procNode d) (ordered, inDeg, [])
      resolveLoop d fuel st.2.2 st.1 (tiers ++ [queue]) st.2.1

/-- The message of `dependency.ErrCycle`. -/
def cycleMsg : String := "dependency cycle detected"

/-- Go `dependency.Resolve`: build the dependency graph from edges and
return (ordered, tiers, error).  `enum` is the iteration order of the
Go `nodeSet` map (`for id := range nodeSet`), a run-dependent
enumeration of the distinct node ids.  On a cycle the Go function
returns `nil, nil, ErrCycle` — no partial structure. -/
def Resolve (enum : List String) (od : Option Diagram) :
    List String × List (List String) × Option String :=
  match od with
  | none => ([], [], none)
  | some d =>
    if d.nodes.isEmpty then ([], [], none)
    else
      let inDeg := initialInDegree d
      let queue := enum.filter fun v => inDeg v == 0
      let (ordered, tiers) := resolveLoop d (d.nodes.length + 1) queue [] [] inDeg
      if ordered.length != (ids d).dedup.length then ([], [], some cycleMsg)
      else (ordered, tiers, none)

/-- Property: `enum` is a valid iteration order of the `nodeSet` map of `d`:
duplicate-free with exactly the diagram's node ids as members. -/
def ValidEnum (d : Diagram) (enum : List String) : Prop :=
  enum.Nodup ∧ ∀ x, x ∈ enum ↔ x ∈ ids d

/-! ## `internal/registry` and `internal/terraform` -/

/-- Go `registry.RefMap`: node id → Terraform resource address.  A Go map
written by the engine alone; modelled as an append list with
last-write-wins lookup. -/
abbrev RefMap := List (String × String)

/-- Go map read `refs[k]` with ok-flag. -/
def refGet (m : RefMap) (k : String) : Option String :=
  m.foldl (fun acc p => if p.1 == k then some p.2 else acc) none

/-- Go map write `refs[k] = v`. -/
def refSet (m : RefMap) (k v : String) : RefMap := m ++ [(k, v)]

/-- Go `registry.ResourceHandler`: the capability contract a resource kind
implements.  `generateHCL` returns (bytes, error) exactly as in Go. -/
structure ResourceHandler where
  resourceType : String
  validate : Node → List Error × List Warning
  generateHCL : Node → Diagram → RefMap → String × Option String

/-- The contents of a `registry.Registry` as seen by `Parse`
(`Get`; registration happens at startup, the RWMutex is irrelevant to
the sequential reads modelled here). -/
abbrev Registry := String → Option ResourceHandler

/-- Go `terraform.SanitizeName`: node id → Terraform-safe name. -/
def SanitizeName (idv : String) : String := idv.replace "-" "_"

/-- The `diagramType → terraform type` table of
`parser.terraformResourceType`, with its `"aws_" + t` fallback. -/
def terraformResourceType (diagramType : String) : String :=
  (([("vpc", "aws_vpc"), ("subnet", "aws_subnet"),
     ("security_group", "aws_security_group"), ("ec2_instance", "aws_instance"),
     ("lambda_function", "aws_lambda_function"), ("s3_bucket", "aws_s3_bucket"),
     ("rds_instance", "aws_db_instance")] : List (String × String)).lookup
    diagramType).getD ("aws_" ++ diagramType)

/-- Go `terraform.TerraformBuilder`: collects resource blocks and template
content for the final Terraform config. -/
structure TerraformBuilder where
  resources : List String
  variables_ : String
  outputs : String
  versions : String
  tfvars : String
  emitTfvars : Bool

/-- Go `terraform.NewBuilder` (zero values for the unset byte fields). -/
def NewBuilder (emitTfvars : Bool) : TerraformBuilder :=
  ⟨[], "", "", "", "", emitTfvars⟩

/-- Go `TerraformBuilder.AddResource`: append a non-empty block. -/
def AddResource (b : TerraformBuilder) (block : String) : TerraformBuilder :=
  if block.length == 0 then b else { b with resources := b.resources ++ [block] }

/-- Go `TerraformBuilder.SetVariables`. -/
def SetVariables (b : TerraformBuilder) (content : String) : TerraformBuilder :=
  { b with variables_ := content }

/-- Go `TerraformBuilder.SetOutputs`. -/
def SetOutputs (b : TerraformBuilder) (content : String) : TerraformBuilder :=
  { b with outputs := content }

/-- Go `TerraformBuilder.SetVersions`. -/
def SetVersions (b : TerraformBuilder) (content : String) : TerraformBuilder :=
  { b with versions := content }

/-- Go `TerraformBuilder.SetTfvars`. -/
def SetTfvars (b : TerraformBuilder) (content : String) : TerraformBuilder :=
  { b with tfvars := content }

/-- Go `TerraformBuilder.Build`: filename → content, skipping empty
sections; `main.tf` joins the resource blocks with blank lines. -/
def Build (b : TerraformBuilder) : List (String × String) :=
  let out : List (String × String) :=
    if b.versions.length > 0 then [("versions.tf", b.versions)] else []
  let out := if b.variables_.length > 0 then out ++ [("variables.tf", b.variables_)] else out
  let mainBuf := String.intercalate "\n\n" b.resources
  let out := if mainBuf.length > 0 then out ++ [("main.tf", mainBuf)] else out
  let out := if b.outputs.length > 0 then out ++ [("outputs.tf", b.outputs)] else out
  if b.emitTfvars && b.tfvars.length > 0 then
    out ++ [("terraform.tfvars", b.tfvars)]
  else out

/-- The fixed boilerplate byte strings produced by the `hclwrite`-based
template functions in `internal/terraform/templates.go`
(`VersionsTF`, `VariablesTF`, `OutputsTF`, `TfvarsFromMetadata`).
Their exact bytes come from the external hclwrite library and are
opaque constants here; no claim depends on their content. -/
structure Templates where
  versionsTF : String
  variablesTF : String
  outputsTF : String
  tfvarsFromMetadata : Metadata → String

/-! ## `internal/parser`: options and the tiered execution engine -/

/-- Go `parser.Options`. -/
structure Options where
  emitTfvars : Bool
  maxParallel : Int

/-- Go `parser.DefaultOptions`. -/
def DefaultOptions : Options := ⟨true, 0⟩

/-- The option normalisation done by `parser.New`: non-positive
`MaxParallel` becomes `runtime.NumCPU()` (the `numCPU` parameter), then
values above 32 are capped to 32. -/
def parserNew (numCPU : Int) (opts : Options) : Options :=
  let opts := if opts.maxParallel ≤ 0 then { opts with maxParallel := numCPU } else opts
  if opts.maxParallel > 32 then { opts with maxParallel := 32 } else opts

/-- The `nodeByID` map of `Parse` (built front to back, so a duplicate
id keeps the last node, as for a Go map). -/
def nodeByID (d : Diagram) (idv : String) : Option Node :=
  d.nodes.foldl (fun acc n => if n.id == idv then some n else acc) none

/-- The result one goroutine of `Parse` deposits for its node: id,
generated bytes (empty on generation error), errors, warnings. -/
structure NodeResult where
  nodeID : String
  hcl : String
  errs : List Error
  warns : List Warning

/-- The body of the per-node goroutine in `Parse`: run the handler's
`Validate`, then `GenerateHCL` against the tier-start reference map; a
generation error is appended as `generation_error` and the bytes
dropped. -/
def runUnit (h : ResourceHandler) (d : Diagram) (refs : RefMap) (n : Node) :
    NodeResult :=
  let (verrs, vwarns) := h.validate n
  let (hcl, genErr) := h.generateHCL n d refs
  match genErr with
  | some m => ⟨n.id, "", verrs ++ [⟨"generation_error", "error", n.id, m, ""⟩], vwarns⟩
  | none => ⟨n.id, hcl, verrs, vwarns⟩

/-- One step of the launch loop of `Parse` (lines 83–119): skip ids
without a node, record an unsupported-type error (and clear `Success`)
when the registry has no handler, otherwise start a goroutine — here:
collect the node and its handler. -/
def launchStep (reg : Registry) (d : Diagram)
    (acc : ParseResult × List (Node × ResourceHandler)) (nodeID : String) :
    ParseResult × List (Node × ResourceHandler) :=
  let (out, launched) := acc
  match nodeByID d nodeID with
  | none => acc
  | some node =>
    match reg node.typ with
    | none =>
      ({ out with
          errors := out.errors ++ [⟨"validation_error", "error", nodeID,
            "unsupported resource type: " ++ node.typ,
            "Use one of: vpc, subnet, security_group, ec2_instance, lambda_function, s3_bucket, rds_instance"⟩],
          success := false }, launched)
    | some h => (out, launched ++ [(node, h)])

/-- The merge loop after `wg.Wait()`: append each arrived result's
errors and warnings, clear `Success` if it had errors, and record it
for the by-id lookup. -/
def mergeStep (acc : ParseResult × List NodeResult) (res : NodeResult) :
    ParseResult × List NodeResult :=
  ({ acc.1 with
      errors := acc.1.errors ++ res.errs,
      warnings := acc.1.warnings ++ res.warns,
      success := if res.errs.length > 0 then false else acc.1.success },
   acc.2 ++ [res])

/-- The `resultsByID` map of `Parse` (zero-value `nodeResult` on a
missing key, as for a Go map). -/
def resultsByID (results : List NodeResult) (nodeID : String) : NodeResult :=
  results.foldl (fun acc r => if r.nodeID == nodeID then r else acc) ⟨"", "", [], []⟩

/-- The block-append loop of `Parse` (lines 131–143): walk the tier in
tier order; a node with non-empty bytes contributes its block and a
reference-map entry `terraformResourceType(type) ++ "." ++
SanitizeName(id)`. -/
def appendStep (d : Diagram) (results : List NodeResult)
    (acc : List String × RefMap) (nodeID : String) : List String × RefMap :=
  let res := resultsByID results nodeID
  if res.hcl.length > 0 then
    let blocks := acc.1 ++ [res.hcl]
    match nodeByID d nodeID with
    | none => (blocks, acc.2)
    | some node =>
      (blocks,
       refSet acc.2 nodeID (terraformResourceType node.typ ++ "." ++ SanitizeName nodeID))
  else acc

/-- One tier of the engine: launch loop, concurrent units (arrival
order given by `sched`), merge loop, then the tier-boundary block and
reference-map appends.  State is (result so far, reference map, blocks). -/
def processTier (reg : Registry) (sched : List NodeResult → List NodeResult)
    (d : Diagram) (st : ParseResult × RefMap × List String) (tier : List String) :
    ParseResult × RefMap × List String :=
  let refs := st.2.1
  let acc := tier.foldl (launchStep reg d) (st.1, [])
  let results0 := sched (acc.2.map fun p => runUnit p.2 d refs p.1)
  let m := results0.foldl mergeStep (acc.1, [])
  let ab := tier.foldl (appendStep d m.2) (st.2.2, refs)
  (m.1, ab.2, ab.1)

/-- Go `parser.Parse`: validate the diagram, resolve dependencies, run the
tiers, and (on overall success) build the Terraform files.  `enum` is
the `nodeSet` iteration order used by `dependency.Resolve` in this run,
`sched` the per-tier goroutine completion order, `tmpl` the boilerplate
template bytes.  Every Go return site is `return out, nil`; the second
component is that Go `error`. -/
def Parse (reg : Registry) (tmpl : Templates) (enum : List String)
    (sched : List NodeResult → List NodeResult) (opts : Options)
    (od : Option Diagram) : ParseResult × Option String :=
  let out : ParseResult := ⟨true, [], [], []⟩
  let out := { out with errors := out.errors ++ Validate od }
  if out.errors.length > 0 then ({ out with success := false }, none)
  else
    match od with
    | none => (out, none)
    | some d =>
      let r := Resolve enum od
      match r.2.2 with
      | some msg =>
        ({ out with
            success := false,
            errors := out.errors ++ [⟨"dependency_error", "error", "", msg,
              "Remove circular edges or fix node references"⟩] }, none)
      | none =>
        let st := r.2.1.foldl (processTier reg sched d) (out, [], [])
        let out := st.1
        if !out.success then (out, none)
        else
          let b := NewBuilder opts.emitTfvars
          let b := SetVersions b tmpl.versionsTF
          let b := SetVariables b tmpl.variablesTF
          let b := SetOutputs b tmpl.outputsTF
          let b := st.2.2.foldl AddResource b
          let b := if opts.emitTfvars then SetTfvars b (tmpl.tfvarsFromMetadata d.metadata)
                   else b
          ({ out with terraformFiles := Build b }, none)

/-! ## Resolver theory

The correctness development for `dependency.Resolve`: the in-degree map
is characterised by edge counts, the per-node edge loop and the outer
Kahn loop preserve an invariant, and from it follow the permutation,
tier-ordering, cycle-detection and fuel-adequacy facts. -/

/-- The edges the in-degree count of `dependency.Resolve` considers:
both endpoints exist and the edge is not a self-loop. -/
def countedB (d : Diagram) (e : Edge) : Bool :=
  memberId d e.source && memberId d e.target && e.source != e.target

/-- Number of counted edges into `v` whose source is not in `P`
(`P` being the processed-so-far list). -/
def cntOut (d : Diagram) (P : List String) (v : String) : Nat :=
  d.edges.countP fun e => countedB d e && e.target == v && !(P.contains e.source)

/-- In-degree decrements that the edge loop for node `u` will still
apply to `v` while the suffix `es` of `d.edges` remains to be scanned. -/
def pend (d : Diagram) (u v : String) (es : List Edge) : Nat :=
  es.countP fun e => e.source == u && e.target == v && memberId d e.target

/-- The dependency relation the resolver's topology is built from:
some edge goes from `s` to `t`, both ids exist and are distinct. -/
def dependsEdge (d : Diagram) (s t : String) : Prop :=
  s ∈ ids d ∧ t ∈ ids d ∧ s ≠ t ∧ ∃ e ∈ d.edges, e.source = s ∧ e.target = t

/-- A diagram is acyclic when no node depends transitively on itself. -/
def Acyclic (d : Diagram) : Prop :=
  ∀ v, ¬ Relation.TransGen (dependsEdge d) v v

lemma memberId_iff {d : Diagram} {v : String} : memberId d v = true ↔ v ∈ ids d := by
  simp [memberId, ids, List.any_eq_true, List.mem_map]

lemma contains_true_iff {l : List String} {a : String} :
    l.contains a = true ↔ a ∈ l := List.elem_iff

lemma contains_false_iff {l : List String} {a : String} :
    l.contains a = false ↔ a ∉ l := by
  constructor
  · intro h hm
    rw [contains_true_iff.2 hm] at h
    cases h
  · intro h
    cases hc : l.contains a
    · rfl
    · exact absurd (contains_true_iff.1 hc) h

lemma countedB_iff {d : Diagram} {e : Edge} : countedB d e = true ↔
    (e.source ∈ ids d ∧ e.target ∈ ids d ∧ e.source ≠ e.target) := by
  simp [countedB, Bool.and_eq_true, memberId_iff, bne_iff_ne, and_assoc]

lemma cntOut_cond_iff {d : Diagram} {P : List String} {v : String} {e : Edge} :
    ((countedB d e && e.target == v && !(P.contains e.source)) = true) ↔
    (countedB d e = true ∧ e.target = v ∧ e.source ∉ P) := by
  simp [Bool.and_eq_true, Bool.not_eq_true', contains_false_iff, and_assoc]

lemma pend_cond_iff {d : Diagram} {u v : String} {e : Edge} :
    ((e.source == u && e.target == v && memberId d e.target) = true) ↔
    (e.source = u ∧ e.target = v ∧ e.target ∈ ids d) := by
  simp [Bool.and_eq_true, memberId_iff, and_assoc]

lemma cntOut_mono (d : Diagram) {P P' : List String}
    (h : ∀ x, x ∈ P → x ∈ P') (v : String) :
    cntOut d P' v ≤ cntOut d P v := by
  apply List.countP_mono_left
  intro e _ he
  rw [cntOut_cond_iff] at he ⊢
  exact ⟨he.1, he.2.1, fun hc => he.2.2 (h _ hc)⟩

lemma countP_split {α : Type} (p q : α → Bool) (l : List α) :
    l.countP p =
      l.countP (fun a => p a && q a) + l.countP (fun a => p a && !(q a)) := by
  induction l with
  | nil => rfl
  | cons a l ih =>
    by_cases hp : p a
    · by_cases hq : q a
      · simp [List.countP_cons, hp, hq, ih]; omega
      · simp only [Bool.not_eq_true] at hq
        simp [List.countP_cons, hp, hq, ih]; omega
    · simp only [Bool.not_eq_true] at hp
      simp [List.countP_cons, hp, ih]

/-- Counted in-edges of `v` from `u` (the decrements `u`'s whole edge
loop applies to a node `v ≠ u`). -/
def cntFromU (d : Diagram) (u v : String) : Nat :=
  d.edges.countP fun e => countedB d e && e.target == v && e.source == u

lemma cntOut_snoc (d : Diagram) {P : List String} {u : String} (hu : u ∉ P)
    (v : String) :
    cntOut d P v = cntOut d (P ++ [u]) v + cntFromU d u v := by
  rw [cntOut, countP_split _ (fun e => e.source == u) d.edges]
  have h1 : d.edges.countP
      (fun e => (countedB d e && e.target == v && !(P.contains e.source)) &&
        (e.source == u)) = cntFromU d u v := by
    apply List.countP_congr
    intro e _
    simp only [Bool.and_eq_true, beq_iff_eq, Bool.not_eq_true', contains_false_iff]
    constructor
    · rintro ⟨⟨⟨hc, ht⟩, _⟩, hs⟩; exact ⟨⟨hc, ht⟩, hs⟩
    · rintro ⟨⟨hc, ht⟩, hs⟩; exact ⟨⟨⟨hc, ht⟩, hs ▸ hu⟩, hs⟩
  have h2 : d.edges.countP
      (fun e => (countedB d e && e.target == v && !(P.contains e.source)) &&
        !(e.source == u)) = cntOut d (P ++ [u]) v := by
    apply List.countP_congr
    intro e _
    simp only [Bool.and_eq_true, beq_iff_eq, Bool.not_eq_true', contains_false_iff,
      beq_eq_false_iff_ne, ne_eq, List.mem_append, List.mem_singleton]
    constructor
    · rintro ⟨⟨⟨hc, ht⟩, hns⟩, hne⟩
      exact ⟨⟨hc, ht⟩, fun h => h.elim hns hne⟩
    · rintro ⟨⟨hc, ht⟩, hn⟩
      exact ⟨⟨⟨hc, ht⟩, fun h => hn (Or.inl h)⟩, fun h => hn (Or.inr h)⟩
  omega

lemma pend_eq_cntFromU (d : Diagram) {u v : String} (hu : u ∈ ids d)
    (hv : v ∈ ids d) (hne : v ≠ u) :
    pend d u v d.edges = cntFromU d u v := by
  apply List.countP_congr
  intro e _
  rw [pend_cond_iff]
  simp only [Bool.and_eq_true, beq_iff_eq]
  constructor
  · rintro ⟨hs, ht, _⟩
    refine ⟨⟨countedB_iff.2 ⟨hs ▸ hu, ht ▸ hv, ?_⟩, ht⟩, hs⟩
    rw [hs, ht]; exact fun h => hne h.symm
  · rintro ⟨⟨hc, ht⟩, hs⟩
    exact ⟨hs, ht, ht ▸ hv⟩

lemma pend_le_cntOut (d : Diagram) {u x : String} {P : List String}
    (hu : u ∈ ids d) (hx : x ∈ ids d) (hne : x ≠ u) (huP : u ∉ P) :
    pend d u x d.edges ≤ cntOut d P x := by
  apply List.countP_mono_left
  intro e _ he
  rw [pend_cond_iff] at he
  obtain ⟨hs, ht, _⟩ := he
  rw [cntOut_cond_iff]
  refine ⟨countedB_iff.2 ⟨hs ▸ hu, ht ▸ hx, ?_⟩, ht, hs ▸ huP⟩
  rw [hs, ht]; exact fun h => hne h.symm

lemma pend_cons (d : Diagram) (u v : String) (e : Edge) (es : List Edge) :
    pend d u v (e :: es) = pend d u v es +
      (if (e.source == u && e.target == v && memberId d e.target) = true
       then 1 else 0) := by
  rw [pend, List.countP_cons]; rfl

lemma initialInDegree_spec (d : Diagram) (v : String) :
    initialInDegree d v = (cntOut d [] v : Int) := by
  have key : ∀ (es : List Edge) (f : String → Int),
      (es.foldl
        (fun f e =>
          if memberId d e.source && memberId d e.target && e.source != e.target then
            fun x => if x == e.target then f x + 1 else f x
          else f) f) v =
      f v + (es.countP (fun e => countedB d e && e.target == v) : Int) := by
    intro es
    induction es with
    | nil => intro f; simp
    | cons e es ih =>
      intro f
      rw [List.foldl_cons, List.countP_cons]
      by_cases hc : countedB d e = true
      · rw [countedB] at hc
        rw [if_pos hc, ih]
        rw [countedB]
        by_cases ht : e.target = v
        · have hbv : (v == e.target) = true := by rw [beq_iff_eq, ht]
          have hte : (e.target == v) = true := by rw [beq_iff_eq, ht]
          simp only [hc, hte, Bool.and_true, if_pos, hbv, if_true]
          push_cast
          ring
        · have hbv : (v == e.target) = false := by
            rw [beq_eq_false_iff_ne]
            exact fun h => ht h.symm
          have hte : (e.target == v) = false := by
            rw [beq_eq_false_iff_ne]
            exact ht
          simp [hc, hte, Bool.and_false, hbv]
      · rw [countedB] at hc
        simp only [Bool.not_eq_true] at hc
        rw [if_neg (by rw [hc]; exact fun h => by cases h), ih]
        rw [countedB]
        simp [hc, Bool.false_and]
  rw [initialInDegree, key]
  have hsame : cntOut d [] v =
      d.edges.countP (fun e => countedB d e && e.target == v) := by
    apply List.countP_congr
    intro e _
    simp [Bool.and_eq_true, and_assoc]
  rw [hsame]
  simp

lemma nodup_snoc {l : List String} {t : String} (h : l.Nodup) (ht : t ∉ l) :
    (l ++ [t]).Nodup := by
  rw [List.nodup_append]
  exact ⟨h, List.nodup_singleton t, by
    intro a ha hat
    rw [List.mem_singleton] at hat
    exact ht (hat ▸ ha)⟩

/-- Invariant preservation through the edge loop of one dequeued node
`u`.  `A` is the processed list including `u`, `Qr` the rest of the
current queue, `nq` the next queue built so far. -/
lemma edgeFold_spec (d : Diagram) (u : String) (A Qr : List String) (hu : u ∈ A) :
    ∀ (es : List Edge) (f : String → Int) (nq : List String),
    (∀ v, v ∈ ids d → v ∉ A →
      f v = (cntOut d A v : Int) + (pend d u v es : Int)) →
    f u ≤ 0 →
    (∀ x, x ∈ A ++ Qr ++ nq → x ≠ u → pend d u x es = 0) →
    (∀ x, x ∈ nq → cntOut d A x = 0) →
    (A ++ Qr ++ nq).Nodup →
    (∀ x, x ∈ nq → x ∈ ids d) →
    (∀ v, v ∈ ids d → v ∉ A → cntOut d A v = 0 → pend d u v es = 0 →
      v ∈ Qr ++ nq) →
    ((∀ v, v ∈ ids d → v ∉ A →
        (es.foldl (procEdge d u) (f, nq)).1 v = (cntOut d A v : Int)) ∧
     (∀ x, x ∈ (es.foldl (procEdge d u) (f, nq)).2 → cntOut d A x = 0) ∧
     (A ++ Qr ++ (es.foldl (procEdge d u) (f, nq)).2).Nodup ∧
     (∀ x, x ∈ (es.foldl (procEdge d u) (f, nq)).2 → x ∈ ids d) ∧
     (∀ v, v ∈ ids d → v ∉ A → cntOut d A v = 0 →
        v ∈ Qr ++ (es.foldl (procEdge d u) (f, nq)).2)) := by
  intro es
  induction es with
  | nil =>
    intro f nq W1 _W2 _W3 W4 W5 W5b W6
    refine ⟨?_, W4, W5, W5b, ?_⟩
    · intro v hv hvA
      have := W1 v hv hvA
      simpa [pend] using this
    · intro v hv hvA hc
      exact W6 v hv hvA hc (by simp [pend])
  | cons e es ih =>
    intro f nq W1 W2 W3 W4 W5 W5b W6
    rw [List.foldl_cons]
    by_cases hsu : e.source = u
    · by_cases hmt : memberId d e.target = true
      · -- e is an edge out of u with an existing target: a decrement happens
        have hpt : pend d u e.target (e :: es) = pend d u e.target es + 1 := by
          rw [pend_cons]
          have : (e.source == u && e.target == e.target && memberId d e.target) = true := by
            rw [Bool.and_eq_true, Bool.and_eq_true, beq_iff_eq, hmt]
            exact ⟨⟨hsu, beq_self_eq_true e.target⟩, rfl⟩
          rw [this, if_pos rfl]
        have hpv : ∀ v, v ≠ e.target → pend d u v (e :: es) = pend d u v es := by
          intro v hv
          rw [pend_cons]
          have : (e.source == u && e.target == v && memberId d e.target) = false := by
            cases hc : (e.source == u && e.target == v && memberId d e.target)
            · rfl
            · exact absurd (pend_cond_iff.1 hc).2.1 (fun h => hv h.symm)
          simp [this]
        have h1 : (e.source != u) = false := by
          rw [hsu]; exact bne_self_eq_false u
        by_cases htu : e.target = u
        · -- self-loop decrement on u: in-degree of u goes negative, never 0
          have hfu' : (fun x => if x == e.target then f x - 1 else f x) e.target
              = f u - 1 := by
            simp [htu]
          have hzf : ((fun x => if x == e.target then f x - 1 else f x) e.target == 0)
              = false := by
            rw [beq_eq_false_iff_ne, hfu']
            omega
          have hred : procEdge d u (f, nq) e =
              ((fun x => if x == e.target then f x - 1 else f x), nq) := by
            simp only [procEdge, h1, Bool.false_eq_true, if_false, hmt, Bool.not_true,
              hzf]
          rw [hred]
          apply ih
          · intro v hv hvA
            have hvu : v ≠ u := fun h => hvA (h ▸ hu)
            have hvt : (v == e.target) = false := by
              rw [beq_eq_false_iff_ne, htu]; exact hvu
            simp only [hvt, Bool.false_eq_true, if_false]
            rw [W1 v hv hvA, hpv v (htu ▸ hvu)]
          · simp only [htu, beq_self_eq_true, if_true]
            omega
          · intro x hx hxu
            rw [← hpv x (htu ▸ hxu)]
            exact W3 x hx hxu
          · exact W4
          · exact W5
          · exact W5b
          · intro v hv hvA hc hp
            have hvu : v ≠ u := fun h => hvA (h ▸ hu)
            exact W6 v hv hvA hc (by rw [hpv v (htu ▸ hvu)]; exact hp)
        · by_cases htA : e.target ∈ A
          · -- impossible: a processed node other than u would still have a
            -- counted in-edge from the unprocessed u
            exfalso
            have := W3 e.target (by simp [htA]) htu
            omega
          · -- target not yet processed: real decrement
            have ht_ids : e.target ∈ ids d := memberId_iff.1 hmt
            have hft : f e.target =
                (cntOut d A e.target : Int) + (pend d u e.target es : Int) + 1 := by
              rw [W1 e.target ht_ids htA, hpt]
              push_cast; ring
            have hfe : (fun x => if x == e.target then f x - 1 else f x) e.target
                = (cntOut d A e.target : Int) + (pend d u e.target es : Int) := by
              simp only [beq_self_eq_true, if_true]
              omega
            by_cases hz : (cntOut d A e.target = 0 ∧ pend d u e.target es = 0)
            · -- in-degree hits zero: target enqueued
              have hzt : ((fun x => if x == e.target then f x - 1 else f x) e.target == 0)
                  = true := by
                rw [beq_iff_eq, hfe, hz.1, hz.2]
                simp
              have hred : procEdge d u (f, nq) e =
                  ((fun x => if x == e.target then f x - 1 else f x),
                   nq ++ [e.target]) := by
                simp only [procEdge, h1, Bool.false_eq_true, if_false, hmt,
                  Bool.not_true, hzt, if_true]
              rw [hred]
              have hfresh : e.target ∉ A ++ Qr ++ nq := by
                intro hmem
                have := W3 e.target hmem (fun h => htA (h ▸ hu))
                omega
              apply ih
              · intro v hv hvA
                by_cases hvt : v = e.target
                · subst hvt
                  simp only [beq_self_eq_true, if_true]
                  omega
                · have hb : (v == e.target) = false := beq_eq_false_iff_ne.2 hvt
                  simp only [hb, Bool.false_eq_true, if_false]
                  rw [W1 v hv hvA, hpv v hvt]
              · have hb : (u == e.target) = false :=
                  beq_eq_false_iff_ne.2 (fun h => htA (h ▸ hu))
                simp only [hb, Bool.false_eq_true, if_false]
                exact W2
              · intro x hx hxu
                rcases List.mem_append.1 hx with hx' | hx''
                · rcases List.mem_append.1 hx' with hxA | hxQr
                  · by_cases hxt : x = e.target
                    · exact absurd (hxt ▸ hxA) htA
                    · rw [← hpv x hxt]
                      exact W3 x (by simp [hxA]) hxu
                  · by_cases hxt : x = e.target
                    · exfalso; exact hfresh (by simp [hxt ▸ hxQr])
                    · rw [← hpv x hxt]
                      exact W3 x (by simp [hxQr]) hxu
                · rcases List.mem_append.1 hx'' with hxnq | hxt
                  · by_cases hxt : x = e.target
                    · exfalso; exact hfresh (by simp [hxt ▸ hxnq])
                    · rw [← hpv x hxt]
                      exact W3 x (by simp [hxnq]) hxu
                  · rw [List.mem_singleton] at hxt
                    subst hxt
                    exact hz.2
              · intro x hx
                rcases List.mem_append.1 hx with hxnq | hxt
                · exact W4 x hxnq
                · rw [List.mem_singleton] at hxt
                  exact hxt ▸ hz.1
              · have heq : A ++ Qr ++ (nq ++ [e.target])
                    = (A ++ Qr ++ nq) ++ [e.target] := by
                  simp [List.append_assoc]
                rw [heq]
                exact nodup_snoc W5 hfresh
              · intro x hx
                rcases List.mem_append.1 hx with hxnq | hxt
                · exact W5b x hxnq
                · rw [List.mem_singleton] at hxt
                  exact hxt ▸ ht_ids
              · intro v hv hvA hc hp
                by_cases hvt : v = e.target
                · subst hvt
                  simp
                · have := W6 v hv hvA hc (by rw [hpv v hvt]; exact hp)
                  rcases List.mem_append.1 this with h' | h'
                  · exact List.mem_append.2 (Or.inl h')
                  · exact List.mem_append.2 (Or.inr (List.mem_append.2 (Or.inl h')))
            · -- in-degree still positive
              have hzt : ((fun x => if x == e.target then f x - 1 else f x) e.target == 0)
                  = false := by
                rw [beq_eq_false_iff_ne, hfe]
                intro h
                exact hz (by constructor <;> omega)
              have hred : procEdge d u (f, nq) e =
                  ((fun x => if x == e.target then f x - 1 else f x), nq) := by
                simp only [procEdge, h1, Bool.false_eq_true, if_false, hmt,
                  Bool.not_true, hzt]
              rw [hred]
              apply ih
              · intro v hv hvA
                by_cases hvt : v = e.target
                · subst hvt
                  simp only [beq_self_eq_true, if_true]
                  omega
                · have hb : (v == e.target) = false := beq_eq_false_iff_ne.2 hvt
                  simp only [hb, Bool.false_eq_true, if_false]
                  rw [W1 v hv hvA, hpv v hvt]
              · have hb : (u == e.target) = false :=
                  beq_eq_false_iff_ne.2 (fun h => htA (h ▸ hu))
                simp only [hb, Bool.false_eq_true, if_false]
                exact W2
              · intro x hx hxu
                by_cases hxt : x = e.target
                · exfalso
                  have := W3 x hx hxu
                  rw [hxt, hpt] at this
                  omega
                · rw [← hpv x hxt]
                  exact W3 x hx hxu
              · exact W4
              · exact W5
              · exact W5b
              · intro v hv hvA hc hp
                by_cases hvt : v = e.target
                · exfalso
                  rw [hvt] at hc hp
                  exact hz ⟨hc, hp⟩
                · exact W6 v hv hvA hc (by rw [hpv v hvt]; exact hp)
      · -- target does not exist: edge skipped, nothing pends on it
        simp only [Bool.not_eq_true] at hmt
        have hred : procEdge d u (f, nq) e = (f, nq) := by
          have h1 : (e.source != u) = false := by
            rw [hsu]; exact bne_self_eq_false u
          simp only [procEdge, h1, Bool.false_eq_true, if_false, hmt, Bool.not_false,
            if_true]
        have hpv : ∀ v, pend d u v (e :: es) = pend d u v es := by
          intro v
          rw [pend_cons]
          have : (e.source == u && e.target == v && memberId d e.target) = false := by
            rw [hmt]
            simp
          simp [this]
        rw [hred]
        apply ih
        · intro v hv hvA; rw [W1 v hv hvA, hpv v]
        · exact W2
        · intro x hx hxu; rw [← hpv x]; exact W3 x hx hxu
        · exact W4
        · exact W5
        · exact W5b
        · intro v hv hvA hc hp
          exact W6 v hv hvA hc (by rw [hpv v]; exact hp)
    · -- edge does not start at u: skipped
      have h1 : (e.source != u) = true := bne_iff_ne.2 hsu
      have hred : procEdge d u (f, nq) e = (f, nq) := by
        simp only [procEdge, h1, if_true]
      have hpv : ∀ v, pend d u v (e :: es) = pend d u v es := by
        intro v
        rw [pend_cons]
        have : (e.source == u && e.target == v && memberId d e.target) = false := by
          have : (e.source == u) = false := beq_eq_false_iff_ne.2 hsu
          rw [this]
          simp
        simp [this]
      rw [hred]
      apply ih
      · intro v hv hvA; rw [W1 v hv hvA, hpv v]
      · exact W2
      · intro x hx hxu; rw [← hpv x]; exact W3 x hx hxu
      · exact W4
      · exact W5
      · exact W5b
      · intro v hv hvA hc hp
        exact W6 v hv hvA hc (by rw [hpv v]; exact hp)

/-- Invariant preservation through one whole tier: folding `procNode`
over the queue `Q` from state `(P, D, N)` processes exactly `Q`,
keeps the in-degree characterisation, and the next queue `N` collects
only fresh existing nodes whose counted in-edges are all processed. -/
lemma tierFold_spec (d : Diagram) :
    ∀ (Q P N : List String) (D : String → Int),
    (P ++ Q ++ N).Nodup →
    (∀ x, x ∈ P ++ Q ++ N → x ∈ ids d) →
    (∀ v, v ∈ ids d → v ∉ P → D v = (cntOut d P v : Int)) →
    (∀ x, x ∈ P ++ Q ++ N → cntOut d P x = 0) →
    (∀ v, v ∈ ids d → cntOut d P v = 0 → v ∈ P ++ Q ++ N) →
    ((Q.foldl (procNode d) (P, D, N)).1 = P ++ Q ∧
     (∀ v, v ∈ ids d → v ∉ P ++ Q →
        (Q.foldl (procNode d) (P, D, N)).2.1 v = (cntOut d (P ++ Q) v : Int)) ∧
     (∀ x, x ∈ (Q.foldl (procNode d) (P, D, N)).2.2 → cntOut d (P ++ Q) x = 0) ∧
     ((P ++ Q ++ (Q.foldl (procNode d) (P, D, N)).2.2).Nodup) ∧
     (∀ x, x ∈ P ++ Q ++ (Q.foldl (procNode d) (P, D, N)).2.2 → x ∈ ids d) ∧
     (∀ v, v ∈ ids d → cntOut d (P ++ Q) v = 0 →
        v ∈ P ++ Q ++ (Q.foldl (procNode d) (P, D, N)).2.2)) := by
  intro Q
  induction Q with
  | nil =>
    intro P N D T1 T1b T2 T3 T6
    simp only [List.foldl_nil, List.append_nil]
    exact ⟨trivial, T2, fun x hx => T3 x (by simpa using Or.inr hx),
      by simpa using T1, by intro x hx; exact T1b x (by simpa using hx),
      by intro v hv hc; simpa using T6 v hv hc⟩
  | cons u Qr ih =>
    intro P N D T1 T1b T2 T3 T6
    have hassoc : P ++ (u :: Qr) ++ N = P ++ u :: (Qr ++ N) := by simp
    have hnodup1 : (u :: (P ++ (Qr ++ N))).Nodup := by
      rw [hassoc] at T1
      exact List.perm_middle.nodup T1
    have huPQN : u ∉ P ++ (Qr ++ N) := (List.nodup_cons.1 hnodup1).1
    have huP : u ∉ P := fun h => huPQN (List.mem_append.2 (Or.inl h))
    have hu_ids : u ∈ ids d := T1b u (by simp)
    have hu_mid : u ∈ P ++ (u :: Qr) ++ N := by simp
    have hDu : D u = 0 := by
      rw [T2 u hu_ids huP]
      rw [T3 u hu_mid]
      rfl
    -- the edge-loop invariant for node u
    have hE := edgeFold_spec d u (P ++ [u]) Qr (by simp) d.edges D N
      (by
        intro v hv hvA
        have hvP : v ∉ P := fun h => hvA (List.mem_append.2 (Or.inl h))
        have hvu : v ≠ u := fun h => hvA (by simp [h])
        rw [T2 v hv hvP, cntOut_snoc d huP v,
          ← pend_eq_cntFromU d hu_ids hv hvu]
        push_cast; ring)
      (by rw [hDu])
      (by
        intro x hx hxu
        have hx_ids : x ∈ ids d := by
          rcases List.mem_append.1 hx with h' | hN
          · rcases List.mem_append.1 h' with hPu | hQr
            · rcases List.mem_append.1 hPu with hP | hu'
              · exact T1b x (by simp [hP])
              · exact absurd (List.mem_singleton.1 hu') hxu
            · exact T1b x (by simp [hQr])
          · exact T1b x (by simp [hN])
        have hx_mid : x ∈ P ++ (u :: Qr) ++ N := by
          rcases List.mem_append.1 hx with h' | hN
          · rcases List.mem_append.1 h' with hPu | hQr
            · rcases List.mem_append.1 hPu with hP | hu'
              · simp [hP]
              · exact absurd (List.mem_singleton.1 hu') hxu
            · simp [hQr]
          · simp [hN]
        have hle := pend_le_cntOut d hu_ids hx_ids hxu huP
        have := T3 x hx_mid
        omega)
      (by
        intro x hxN
        have := T3 x (by simp [hxN])
        have hmono := @cntOut_mono d P (P ++ [u])
          (fun y hy => List.mem_append.2 (Or.inl hy)) x
        omega)
      (by
        have : (P ++ [u]) ++ Qr ++ N = P ++ (u :: Qr) ++ N := by simp
        rw [this]; exact T1)
      (fun x hxN => T1b x (by simp [hxN]))
      (by
        intro v hv hvA hc hp
        have hvP : v ∉ P := fun h => hvA (List.mem_append.2 (Or.inl h))
        have hvu : v ≠ u := fun h => hvA (by simp [h])
        have h0 : cntOut d P v = 0 := by
          rw [cntOut_snoc d huP v, ← pend_eq_cntFromU d hu_ids hv hvu]
          omega
        have := T6 v hv h0
        rw [hassoc] at this
        rcases List.mem_append.1 this with hP | hrest
        · exact absurd hP hvP
        · rcases List.mem_cons.1 hrest with heq | hmem
          · exact absurd heq hvu
          · exact hmem)
    obtain ⟨E1, E2, E3, E4, E5⟩ := hE
    -- step to the state after processing u, then apply the tier IH
    rw [List.foldl_cons]
    have hproc : procNode d (P, D, N) u =
        (P ++ [u], (d.edges.foldl (procEdge d u) (D, N)).1,
         (d.edges.foldl (procEdge d u) (D, N)).2) := rfl
    rw [hproc]
    have key := ih (P ++ [u]) (d.edges.foldl (procEdge d u) (D, N)).2
      (d.edges.foldl (procEdge d u) (D, N)).1
      E3
      (by
        intro x hx
        rcases List.mem_append.1 hx with h' | hF
        · rcases List.mem_append.1 h' with hPu | hQr
          · rcases List.mem_append.1 hPu with hP | hu'
            · exact T1b x (by simp [hP])
            · rw [List.mem_singleton.1 hu']; exact hu_ids
          · exact T1b x (by simp [hQr])
        · exact E4 x hF)
      E1
      (by
        intro x hx
        have hmono := @cntOut_mono d P (P ++ [u])
          (fun y hy => List.mem_append.2 (Or.inl hy)) x
        rcases List.mem_append.1 hx with h' | hF
        · rcases List.mem_append.1 h' with hPu | hQr
          · rcases List.mem_append.1 hPu with hP | hu'
            · have := T3 x (by simp [hP]); omega
            · rw [List.mem_singleton.1 hu']
              have := T3 u hu_mid
              have hmono' := @cntOut_mono d P (P ++ [u])
                (fun y hy => List.mem_append.2 (Or.inl hy)) u
              omega
          · have := T3 x (by simp [hQr]); omega
        · exact E2 x hF)
      (by
        intro v hv hc
        by_cases hvA : v ∈ P ++ [u]
        · exact List.mem_append.2 (Or.inl (List.mem_append.2 (Or.inl hvA)))
        · have := E5 v hv hvA hc
          rcases List.mem_append.1 this with hQr | hF
          · exact List.mem_append.2 (Or.inl (List.mem_append.2 (Or.inr hQr)))
          · exact List.mem_append.2 (Or.inr hF))
    obtain ⟨K1, K2, K3, K4, K5, K6⟩ := key
    have hPQ : (P ++ [u]) ++ Qr = P ++ u :: Qr := by simp
    rw [hPQ] at K1 K2 K3 K4 K5 K6
    exact ⟨K1, K2, K3, K4, K5, K6⟩

/-- The outer-loop invariant: with enough fuel, `resolveLoop` is
fuel-insensitive (so it models Go's unbounded loop), its `ordered` is
the flattening of its tiers, is duplicate-free, contains only existing
ids, contains every id all of whose counted in-edges come from it, and
every recorded tier only holds nodes whose counted in-edges all come
from earlier tiers. -/
lemma resolveLoop_spec (d : Diagram) :
    ∀ (fuel k : Nat) (Q P : List String) (T : List (List String)) (D : String → Int),
    (P ++ Q).Nodup →
    (∀ x, x ∈ P ++ Q → x ∈ ids d) →
    (∀ v, v ∈ ids d → v ∉ P → D v = (cntOut d P v : Int)) →
    (∀ x, x ∈ P ++ Q → cntOut d P x = 0) →
    (∀ v, v ∈ ids d → cntOut d P v = 0 → v ∈ P ++ Q) →
    P = T.flatten →
    (∀ j (hj : j < T.length), ∀ t ∈ T.get ⟨j, hj⟩,
        cntOut d ((T.take j).flatten) t = 0) →
    (ids d).dedup.length + 1 ≤ fuel + P.length →
    (resolveLoop d (fuel + k) Q P T D = resolveLoop d fuel Q P T D ∧
     (resolveLoop d fuel Q P T D).1 = (resolveLoop d fuel Q P T D).2.flatten ∧
     (resolveLoop d fuel Q P T D).1.Nodup ∧
     (∀ x, x ∈ (resolveLoop d fuel Q P T D).1 → x ∈ ids d) ∧
     (∀ v, v ∈ ids d → cntOut d (resolveLoop d fuel Q P T D).1 v = 0 →
        v ∈ (resolveLoop d fuel Q P T D).1) ∧
     (∀ j (hj : j < (resolveLoop d fuel Q P T D).2.length),
        ∀ t ∈ (resolveLoop d fuel Q P T D).2.get ⟨j, hj⟩,
          cntOut d (((resolveLoop d fuel Q P T D).2.take j).flatten) t = 0)) := by
  intro fuel
  induction fuel with
  | zero =>
    intro k Q P T D L1 L1b _L2 _L3 _L6 _LP _LG hfuel
    exfalso
    have hPn : P.Nodup := L1.of_append_left
    have hPsub : P ⊆ (ids d).dedup := by
      intro x hx
      exact List.mem_dedup.2 (L1b x (List.mem_append.2 (Or.inl hx)))
    have := (hPn.subperm hPsub).length_le
    omega
  | succ f ihf =>
    intro k Q P T D L1 L1b L2 L3 L6 LP LG hfuel
    cases Q with
    | nil =>
      have hstep : ∀ m, resolveLoop d (m + 1) [] P T D = (P, T) := by
        intro m
        simp [resolveLoop]
      have hsk : Nat.succ f + k = (f + k) + 1 := by omega
      rw [hsk, hstep (f + k), hstep f]
      refine ⟨rfl, by simpa using LP, by simpa using L1, ?_, ?_, LG⟩
      · intro x hx
        exact L1b x (by simpa using hx)
      · intro v hv hc
        simpa using L6 v hv hc
    | cons q Qt =>
      -- one full tier executes
      have hK := tierFold_spec d (q :: Qt) P [] D
        (by simpa using L1) (by intro x hx; exact L1b x (by simpa using hx))
        L2 (by intro x hx; exact L3 x (by simpa using hx))
        (by intro v hv hc; simpa using L6 v hv hc)
      obtain ⟨K1, K2, K3, K4, K5, K6⟩ := hK
      set F := (q :: Qt).foldl (procNode d) (P, D, []) with hF
      have hstep : ∀ m, resolveLoop d (m + 1) (q :: Qt) P T D =
          resolveLoop d m F.2.2 F.1 (T ++ [q :: Qt]) F.2.1 := by
        intro m
        simp [resolveLoop, hF]
      have hlen : 1 ≤ (q :: Qt).length := by simp
      have hrec := ihf k F.2.2 F.1 (T ++ [q :: Qt]) F.2.1
        (by rw [K1]; simpa [List.append_assoc] using K4)
        (by rw [K1]; intro x hx; exact K5 x (by simpa [List.append_assoc] using hx))
        (by rw [K1]; exact K2)
        (by
          rw [K1]
          intro x hx
          rcases List.mem_append.1 hx with hPQ | hN
          · have hmono := @cntOut_mono d P (P ++ q :: Qt)
              (fun y hy => List.mem_append.2 (Or.inl hy)) x
            have := L3 x hPQ
            omega
          · exact K3 x hN)
        (by
          rw [K1]
          intro v hv hc
          have := K6 v hv hc
          simpa [List.append_assoc] using this)
        (by rw [K1, LP]; simp)
        (by
          intro j hj t ht
          have hj' : j < T.length + 1 := by simpa using hj
          rcases Nat.lt_succ_iff_lt_or_eq.1 hj' with hlt | heq
          · have hget : (T ++ [q :: Qt]).get ⟨j, by simp; omega⟩ = T.get ⟨j, hlt⟩ :=
              List.get_append j hlt
            have htake : (T ++ [q :: Qt]).take j = T.take j :=
              List.take_append_of_le_length (Nat.le_of_lt hlt)
            rw [htake]
            exact LG j hlt t (by rw [← hget]; exact ht)
          · subst heq
            have hget : (T ++ [q :: Qt]).get ⟨T.length, by simp⟩ = q :: Qt := by
              simp
            have htake : (T ++ [q :: Qt]).take T.length = T := List.take_left T _
            rw [htake, ← LP]
            refine L3 t ?_
            rw [← hget]
            exact List.mem_append.2 (Or.inr ht))
        (by
          rw [K1, List.length_append]
          simp only [List.length_cons] at hfuel ⊢
          omega)
      obtain ⟨R0, R1, R2, R3, R4, R5⟩ := hrec
      have hsk : Nat.succ f + k = (f + k) + 1 := by omega
      rw [hsk, hstep (f + k), hstep f, R0]
      exact ⟨rfl, R1, R2, R3, R4, R5⟩

/-- The (ordered, tiers) pair the resolver loop computes in a
`Resolve` run; a run is determined by the diagram and the `nodeSet`
iteration order `enum`. -/
def resolveRun (d : Diagram) (enum : List String) :
    List String × List (List String) :=
  resolveLoop d (d.nodes.length + 1)
    (enum.filter fun v => initialInDegree d v == 0) [] [] (initialInDegree d)

/-- Unfolding of `Resolve` on a non-empty diagram. -/
lemma Resolve_some (d : Diagram) (enum : List String) (hne : d.nodes ≠ []) :
    Resolve enum (some d) =
      (if ((resolveRun d enum).1.length != (ids d).dedup.length) = true
       then ([], [], some cycleMsg)
       else ((resolveRun d enum).1, (resolveRun d enum).2, none)) := by
  unfold resolveRun
  have hemp : d.nodes.isEmpty = false := by
    cases hd : d.nodes
    · exact absurd hd hne
    · rfl
  rw [Resolve]
  rw [hemp]
  simp only [Bool.false_eq_true, if_false]

/-- The loop postcondition, instantiated at the initial state of a
`Resolve` run with a valid map-iteration order. -/
lemma resolve_post (d : Diagram) (enum : List String) (henum : ValidEnum d enum) :
    ((resolveRun d enum).1 = (resolveRun d enum).2.flatten ∧
     (resolveRun d enum).1.Nodup ∧
     (∀ x, x ∈ (resolveRun d enum).1 → x ∈ ids d) ∧
     (∀ v, v ∈ ids d → cntOut d (resolveRun d enum).1 v = 0 →
        v ∈ (resolveRun d enum).1) ∧
     (∀ j (hj : j < (resolveRun d enum).2.length),
        ∀ t ∈ (resolveRun d enum).2.get ⟨j, hj⟩,
          cntOut d (((resolveRun d enum).2.take j).flatten) t = 0)) := by
  unfold resolveRun
  have hQn : (enum.filter fun v => initialInDegree d v == 0).Nodup :=
    henum.1.filter _
  have hQsub : ∀ x, x ∈ (enum.filter fun v => initialInDegree d v == 0) →
      x ∈ ids d := by
    intro x hx
    exact (henum.2 x).1 (List.mem_of_mem_filter hx)
  have hMle : (ids d).dedup.length ≤ d.nodes.length := by
    have h1 := ((ids d).dedup_sublist).length_le
    have h2 : (ids d).length = d.nodes.length := List.length_map _ _
    omega
  have hpost := resolveLoop_spec d (d.nodes.length + 1) 0
    (enum.filter fun v => initialInDegree d v == 0) [] [] (initialInDegree d)
    (by simpa using hQn)
    (by intro x hx; exact hQsub x (by simpa using hx))
    (by intro v _hv _; exact initialInDegree_spec d v)
    (by
      intro x hx
      have hx' : x ∈ enum.filter fun v => initialInDegree d v == 0 := by simpa using hx
      have := (List.mem_filter.1 hx').2
      have hD : initialInDegree d x = 0 := by
        rwa [beq_iff_eq] at this
      have := initialInDegree_spec d x
      omega)
    (by
      intro v hv hc
      have hD : initialInDegree d v = 0 := by
        rw [initialInDegree_spec d v, hc]; rfl
      have hmem : v ∈ enum := (henum.2 v).2 hv
      simp only [List.nil_append]
      exact List.mem_filter.2 ⟨hmem, by rw [hD]; rfl⟩)
    (by simp)
    (by intro j hj; simp at hj)
    (by simpa using hMle)
  exact ⟨hpost.2.1, hpost.2.2.1, hpost.2.2.2.1, hpost.2.2.2.2.1, hpost.2.2.2.2.2⟩

/-- A finite non-empty set in which every element has an `r`-predecessor
inside the set contains a cycle. -/
lemma cycle_of_stuck {r : String → String → Prop} (U : List String)
    (hneU : U ≠ []) (hstep : ∀ v ∈ U, ∃ w, w ∈ U ∧ r w v) :
    ∃ v, Relation.TransGen r v v := by
  classical
  choose! f hfU hfr using hstep
  obtain ⟨x0, hx0⟩ := List.exists_mem_of_ne_nil U hneU
  have hgU : ∀ n : Nat, f^[n] x0 ∈ U := by
    intro n
    induction n with
    | zero => exact hx0
    | succ m ihm =>
      rw [Function.iterate_succ_apply']
      exact hfU _ ihm
  have hchain : ∀ n : Nat, r (f^[n + 1] x0) (f^[n] x0) := by
    intro n
    rw [Function.iterate_succ_apply']
    exact hfr _ (hgU n)
  have htrans : ∀ m n : Nat, m < n →
      Relation.TransGen r (f^[n] x0) (f^[m] x0) := by
    intro m n hmn
    induction n with
    | zero => omega
    | succ p ihp =>
      rcases Nat.lt_succ_iff_lt_or_eq.1 hmn with hlt | heq
      · exact Relation.TransGen.head (hchain p) (ihp hlt)
      · subst heq
        exact Relation.TransGen.single (hchain m)
  have hmaps : ∀ n ∈ Finset.range (U.length + 1),
      U.indexOf (f^[n] x0) ∈ Finset.range U.length := by
    intro n _
    rw [Finset.mem_range]
    exact List.indexOf_lt_length.2 (hgU n)
  obtain ⟨a, _, b, _, hab, hidx⟩ :=
    Finset.exists_ne_map_eq_of_card_lt_of_maps_to (by simp) hmaps
  have hg : f^[a] x0 = f^[b] x0 := by
    have h1 := List.indexOf_get (List.indexOf_lt_length.2 (hgU a))
    have h2 := List.indexOf_get (List.indexOf_lt_length.2 (hgU b))
    rw [← h1, ← h2]
    congr 1
    exact Fin.ext hidx
  rcases lt_or_gt_of_ne hab with h | h
  · exact ⟨f^[a] x0, hg ▸ htrans a b h⟩
  · exact ⟨f^[b] x0, hg ▸ htrans b a h⟩

lemma mem_flatten_get {TS : List (List String)} {x : String}
    (hx : x ∈ TS.flatten) : ∃ i, ∃ hi : i < TS.length, x ∈ TS.get ⟨i, hi⟩ := by
  obtain ⟨l, hl, hxl⟩ := List.mem_flatten.1 hx
  obtain ⟨i, hil⟩ := List.mem_iff_get.1 hl
  exact ⟨i.1, i.2, hil ▸ hxl⟩

lemma mem_take_flatten {TS : List (List String)} {j : Nat} {x : String}
    (hx : x ∈ (TS.take j).flatten) :
    ∃ i, ∃ hi : i < TS.length, i < j ∧ x ∈ TS.get ⟨i, hi⟩ := by
  obtain ⟨l, hl, hxl⟩ := List.mem_flatten.1 hx
  obtain ⟨i, hil⟩ := List.mem_iff_get.1 hl
  have hi1 : i.1 < min j TS.length := by
    have := i.2
    simpa [List.length_take] using this
  have hij : i.1 < j := lt_of_lt_of_le hi1 (min_le_left _ _)
  have hiT : i.1 < TS.length := lt_of_lt_of_le hi1 (min_le_right _ _)
  refine ⟨i.1, hiT, hij, ?_⟩
  have hg : (TS.take j).get i = TS.get ⟨i.1, hiT⟩ := by
    simp only [List.get_eq_getElem]
    rw [List.getElem_take]
  rw [← hg, hil]
  exact hxl

lemma unique_tier {TS : List (List String)} (hnd : TS.flatten.Nodup)
    {i i' : Nat} (hi : i < TS.length) (hi' : i' < TS.length) {x : String}
    (hx : x ∈ TS.get ⟨i, hi⟩) (hx' : x ∈ TS.get ⟨i', hi'⟩) : i = i' := by
  by_contra hne
  have hpd := (List.nodup_flatten.1 hnd).2
  have hget := List.pairwise_iff_get.1 hpd
  rcases Nat.lt_or_ge i i' with h | h
  · exact (hget ⟨i, hi⟩ ⟨i', hi'⟩ h) hx hx'
  · have h' : i' < i := by omega
    exact (hget ⟨i', hi'⟩ ⟨i, hi⟩ h') hx' hx

/-- From the per-tier zero-count fact: along any dependency edge the
target's tier is strictly later than the source's. -/
lemma tier_lt_of_good (d : Diagram) (TS : List (List String))
    (hnd : TS.flatten.Nodup)
    (hgood : ∀ j (hj : j < TS.length), ∀ t ∈ TS.get ⟨j, hj⟩,
        cntOut d ((TS.take j).flatten) t = 0)
    {s t : String} (hdep : dependsEdge d s t) :
    ∀ i j (hi : i < TS.length) (hj : j < TS.length),
      s ∈ TS.get ⟨i, hi⟩ → t ∈ TS.get ⟨j, hj⟩ → i < j := by
  intro i j hi hj hs ht
  obtain ⟨hsid, htid, hne, e, he, hes, het⟩ := hdep
  have h0 := hgood j hj t ht
  have hsrc : e.source ∈ (TS.take j).flatten := by
    by_contra hcon
    have hpos : 0 < cntOut d ((TS.take j).flatten) t := by
      rw [cntOut, List.countP_pos_iff]
      refine ⟨e, he, ?_⟩
      rw [cntOut_cond_iff]
      refine ⟨countedB_iff.2 ⟨hes ▸ hsid, het ▸ htid, ?_⟩, het, hcon⟩
      rw [hes, het]
      exact hne
    omega
  obtain ⟨i', hi', hlt, hmem⟩ := mem_take_flatten hsrc
  have heq : i = i' := unique_tier hnd hi hi' hs (hes ▸ hmem)
  omega

/-- Tier structure with full coverage of the ids rules out cycles. -/
lemma acyclic_of_tiers (d : Diagram) (TS : List (List String))
    (hnd : TS.flatten.Nodup)
    (hcov : ∀ x, x ∈ ids d → x ∈ TS.flatten)
    (hgood : ∀ j (hj : j < TS.length), ∀ t ∈ TS.get ⟨j, hj⟩,
        cntOut d ((TS.take j).flatten) t = 0) :
    Acyclic d := by
  have hmono : ∀ a b, Relation.TransGen (dependsEdge d) a b →
      ∀ i j (hi : i < TS.length) (hj : j < TS.length),
        a ∈ TS.get ⟨i, hi⟩ → b ∈ TS.get ⟨j, hj⟩ → i < j := by
    intro a b hab
    induction hab with
    | single h => exact tier_lt_of_good d TS hnd hgood h
    | tail hprev hlast ihp =>
      intro i j hi hj ha hb
      rename_i b' _
      have hb' : b' ∈ ids d := hlast.1
      obtain ⟨k, hk, hbk⟩ := mem_flatten_get (hcov b' hb')
      have h1 := ihp i k hi hk ha hbk
      have h2 := tier_lt_of_good d TS hnd hgood hlast k j hk hj hbk hb
      omega
  intro v hv
  have hvid : v ∈ ids d := by
    cases hv with
    | single h => exact h.1
    | tail _ hlast => exact hlast.2.1
  obtain ⟨i, hi, hvi⟩ := mem_flatten_get (hcov v hvid)
  exact absurd (hmono v v hv i i hi hi hvi hvi) (by omega)

/-- A run that covers the full distinct-id count is a permutation of
the distinct ids. -/
lemma resolve_perm_of_complete (d : Diagram) (enum : List String)
    (henum : ValidEnum d enum)
    (hlen : (resolveRun d enum).1.length = (ids d).dedup.length) :
    (resolveRun d enum).1.Perm (ids d).dedup := by
  obtain ⟨_, hnd, hsub, _, _⟩ := resolve_post d enum henum
  have hsp : List.Subperm (resolveRun d enum).1 (ids d).dedup :=
    hnd.subperm (fun x hx => List.mem_dedup.2 (hsub x hx))
  exact hsp.perm_of_length_le (by omega)

/-- An incomplete run leaves a stuck set in which every node has an
unprocessed counted predecessor, hence a dependency cycle. -/
lemma resolve_incomplete_cycle (d : Diagram) (enum : List String)
    (henum : ValidEnum d enum)
    (hlen : (resolveRun d enum).1.length ≠ (ids d).dedup.length) :
    ∃ v, Relation.TransGen (dependsEdge d) v v := by
  obtain ⟨_, hnd, hsub, hstuck, _⟩ := resolve_post d enum henum
  have hsp : List.Subperm (resolveRun d enum).1 (ids d).dedup :=
    hnd.subperm (fun x hx => List.mem_dedup.2 (hsub x hx))
  have hlt : (resolveRun d enum).1.length < (ids d).dedup.length :=
    lt_of_le_of_ne hsp.length_le hlen
  have hUne : (ids d).dedup.filter
      (fun v => !((resolveRun d enum).1.contains v)) ≠ [] := by
    intro h
    have hsub2 : (ids d).dedup ⊆ (resolveRun d enum).1 := by
      intro x hx
      by_contra hnx
      have hxm : x ∈ (ids d).dedup.filter
          (fun v => !((resolveRun d enum).1.contains v)) := by
        refine List.mem_filter.2 ⟨hx, ?_⟩
        rw [Bool.not_eq_true']
        exact contains_false_iff.2 hnx
      rw [h] at hxm
      cases hxm
    have := (((ids d).nodup_dedup).subperm hsub2).length_le
    omega
  have hstepU : ∀ v ∈ (ids d).dedup.filter
      (fun v => !((resolveRun d enum).1.contains v)),
      ∃ w, w ∈ (ids d).dedup.filter
        (fun v => !((resolveRun d enum).1.contains v)) ∧ dependsEdge d w v := by
    intro v hv
    have hvd := (List.mem_filter.1 hv).1
    have hvR : v ∉ (resolveRun d enum).1 := by
      have h2 := (List.mem_filter.1 hv).2
      rw [Bool.not_eq_true'] at h2
      exact contains_false_iff.1 h2
    have hvid : v ∈ ids d := List.mem_dedup.1 hvd
    have hpos : 0 < cntOut d (resolveRun d enum).1 v :=
      Nat.pos_of_ne_zero (fun h => hvR (hstuck v hvid h))
    rw [cntOut, List.countP_pos_iff] at hpos
    obtain ⟨e, he, hcond⟩ := hpos
    rw [cntOut_cond_iff] at hcond
    obtain ⟨hcB, htv, hsP⟩ := hcond
    obtain ⟨hsid, htid, hst⟩ := countedB_iff.1 hcB
    refine ⟨e.source, ?_, ?_⟩
    · refine List.mem_filter.2 ⟨List.mem_dedup.2 hsid, ?_⟩
      rw [Bool.not_eq_true']
      exact contains_false_iff.2 hsP
    · exact ⟨hsid, htv ▸ htid, htv ▸ hst, e, he, rfl, htv⟩
  exact cycle_of_stuck _ hUne hstepU

/-- A diagram without edges is acyclic. -/
lemma acyclic_of_no_edges {d : Diagram} (h : d.edges = []) : Acyclic d := by
  have hno : ∀ a b, ¬ dependsEdge d a b := by
    rintro a b ⟨_, _, _, e, he, _⟩
    rw [h] at he
    cases he
  intro v hv
  cases hv with
  | single hstep => exact hno _ _ hstep
  | tail _ hstep => exact hno _ _ hstep

/-- C1: for every acyclic diagram whose edges reference existing node
ids, `Resolve` (under any map-iteration order) returns tiers whose
concatenation is a permutation of all distinct node ids, and for every
edge with distinct existing endpoints the target's tier index is
strictly greater than the source's tier index. -/
theorem C1_resolve_acyclic_tiers (d : Diagram) (enum : List String)
    (henum : ValidEnum d enum)
    (hedges : ∀ e ∈ d.edges, e.source ∈ ids d ∧ e.target ∈ ids d)
    (hacyc : Acyclic d) :
    ∃ ordered tiers, Resolve enum (some d) = (ordered, tiers, none) ∧
      tiers.flatten.Perm (ids d).dedup ∧
      ∀ e ∈ d.edges, e.source ≠ e.target →
        ∀ i j (hi : i < tiers.length) (hj : j < tiers.length),
          e.source ∈ tiers.get ⟨i, hi⟩ → e.target ∈ tiers.get ⟨j, hj⟩ →
            i < j := by
  by_cases hne : d.nodes = []
  · refine ⟨[], [], ?_, ?_, ?_⟩
    · simp [Resolve, hne]
    · simp [ids, hne]
    · intro e _ _ i j hi _ _ _
      simp at hi
  · obtain ⟨hflat, hnd, hsub, hstuck, hgood⟩ := resolve_post d enum henum
    have hlen : (resolveRun d enum).1.length = (ids d).dedup.length := by
      by_contra hc
      obtain ⟨v, hv⟩ := resolve_incomplete_cycle d enum henum hc
      exact hacyc v hv
    refine ⟨(resolveRun d enum).1, (resolveRun d enum).2, ?_, ?_, ?_⟩
    · rw [Resolve_some d enum hne]
      have hb : ((resolveRun d enum).1.length != (ids d).dedup.length) = false := by
        rw [bne_eq_false_iff_eq]
        exact hlen
      rw [hb]
      simp
    · rw [← hflat]
      exact resolve_perm_of_complete d enum henum hlen
    · intro e he hst i j hi hj hsi htj
      have hdep : dependsEdge d e.source e.target :=
        ⟨(hedges e he).1, (hedges e he).2, hst, e, he, rfl, rfl⟩
      exact tier_lt_of_good d (resolveRun d enum).2 (hflat ▸ hnd) hgood hdep
        i j hi hj hsi htj

/-- A one-node, no-edge diagram used to witness C1. -/
def dW1 : Diagram :=
  ⟨⟨"1.0", "w", "", ""⟩, [⟨"a", "vpc", "", ⟨0, 0⟩, []⟩], []⟩

/-- Witness for C1 at a concrete acyclic diagram. -/
theorem C1_witness :
    ∃ ordered tiers, Resolve ["a"] (some dW1) = (ordered, tiers, none) ∧
      tiers.flatten.Perm (ids dW1).dedup ∧
      ∀ e ∈ dW1.edges, e.source ≠ e.target →
        ∀ i j (hi : i < tiers.length) (hj : j < tiers.length),
          e.source ∈ tiers.get ⟨i, hi⟩ → e.target ∈ tiers.get ⟨j, hj⟩ →
            i < j :=
  C1_resolve_acyclic_tiers dW1 ["a"]
    ⟨by decide, fun x => Iff.rfl⟩
    (by intro e he; cases he)
    (acyclic_of_no_edges rfl)

/-! ## Engine theory

Closed-form characterisation of `Parse`'s tier loop: the launch loop,
the merge loop and the block-append loop of `processTier` are each
described by a recursive function, and the whole tier fold by
`runTiers`.  These are derived from the step functions above and are
the vehicle for the aggregation / reference-map theorems. -/

/-- The suggestion string of the unsupported-type error in `Parse`. -/
def unsupSuggestion : String :=
  "Use one of: vpc, subnet, security_group, ec2_instance, lambda_function, s3_bucket, rds_instance"

/-- The unsupported-type errors the launch loop of a tier records, in
tier order (skipping ids without a node, as the loop does). -/
def unsupErrors (reg : Registry) (d : Diagram) : List String → List Error
  | [] => []
  | nodeID :: rest =>
    match nodeByID d nodeID with
    | none => unsupErrors reg d rest
    | some node =>
      match reg node.typ with
      | none =>
        ⟨"validation_error", "error", nodeID,
          "unsupported resource type: " ++ node.typ, unsupSuggestion⟩ ::
          unsupErrors reg d rest
      | some _ => unsupErrors reg d rest

/-- The units (node, handler) the launch loop of a tier starts, in tier
order. -/
def launchedUnits (reg : Registry) (d : Diagram) :
    List String → List (Node × ResourceHandler)
  | [] => []
  | nodeID :: rest =>
    match nodeByID d nodeID with
    | none => launchedUnits reg d rest
    | some node =>
      match reg node.typ with
      | none => launchedUnits reg d rest
      | some h => (node, h) :: launchedUnits reg d rest

lemma launch_fold (reg : Registry) (d : Diagram) :
    ∀ (tier : List String) (out : ParseResult)
      (l0 : List (Node × ResourceHandler)),
    tier.foldl (launchStep reg d) (out, l0) =
      ({ out with
          errors := out.errors ++ unsupErrors reg d tier,
          success := out.success && (unsupErrors reg d tier).isEmpty },
       l0 ++ launchedUnits reg d tier) := by
  intro tier
  induction tier with
  | nil => intro out l0; simp [unsupErrors, launchedUnits]
  | cons nodeID rest ih =>
    intro out l0
    rw [List.foldl_cons]
    cases hnb : nodeByID d nodeID with
    | none =>
      have hstep : launchStep reg d (out, l0) nodeID = (out, l0) := by
        simp [launchStep, hnb]
      rw [hstep, ih, unsupErrors, launchedUnits, hnb]
    | some node =>
      cases hreg : reg node.typ with
      | none =>
        have hstep : launchStep reg d (out, l0) nodeID =
            ({ out with
                errors := out.errors ++ [⟨"validation_error", "error", nodeID,
                  "unsupported resource type: " ++ node.typ, unsupSuggestion⟩],
                success := false }, l0) := by
          simp [launchStep, hnb, hreg, unsupSuggestion]
        rw [hstep, ih]
        rw [unsupErrors, launchedUnits, hnb]
        simp [hreg, List.append_assoc]
      | some h =>
        have hstep : launchStep reg d (out, l0) nodeID = (out, l0 ++ [(node, h)]) := by
          simp [launchStep, hnb, hreg]
        rw [hstep, ih]
        rw [unsupErrors, launchedUnits, hnb]
        simp [hreg, List.append_assoc]

lemma merge_fold :
    ∀ (results : List NodeResult) (out : ParseResult) (racc : List NodeResult),
    results.foldl mergeStep (out, racc) =
      ({ out with
          errors := out.errors ++ (results.map NodeResult.errs).flatten,
          warnings := out.warnings ++ (results.map NodeResult.warns).flatten,
          success := out.success && results.all fun r => r.errs.isEmpty },
       racc ++ results) := by
  intro results
  induction results with
  | nil => intro out racc; simp
  | cons res rest ih =>
    intro out racc
    rw [List.foldl_cons]
    by_cases hre : res.errs = []
    · have hstep : mergeStep (out, racc) res =
          ({ out with
              errors := out.errors ++ res.errs,
              warnings := out.warnings ++ res.warns },
           racc ++ [res]) := by
        simp [mergeStep, hre]
      rw [hstep, ih]
      simp [hre, List.append_assoc]
    · have hlen : res.errs.length > 0 := by
        cases h : res.errs
        · exact absurd h hre
        · simp [h]
      have hstep : mergeStep (out, racc) res =
          ({ out with
              errors := out.errors ++ res.errs,
              warnings := out.warnings ++ res.warns,
              success := false }, racc ++ [res]) := by
        simp [mergeStep, hlen]
      rw [hstep, ih]
      have hne : res.errs.isEmpty = false := by
        cases h : res.errs
        · exact absurd h hre
        · rfl
      simp [hne, List.append_assoc]

/-- The Terraform resource address recorded for a node. -/
def tfAddr (node : Node) (nodeID : String) : String :=
  terraformResourceType node.typ ++ "." ++ SanitizeName nodeID

/-- The blocks and reference-map entries the block-append loop of a
tier contributes, in tier order. -/
def appendOut (d : Diagram) (results : List NodeResult) :
    List String → List String × RefMap
  | [] => ([], [])
  | nodeID :: rest =>
    let res := resultsByID results nodeID
    let (bs, rs) := appendOut d results rest
    if res.hcl.length > 0 then
      match nodeByID d nodeID with
      | none => (res.hcl :: bs, rs)
      | some node => (res.hcl :: bs, (nodeID, tfAddr node nodeID) :: rs)
    else (bs, rs)

lemma append_fold (d : Diagram) (results : List NodeResult) :
    ∀ (tier : List String) (blocks : List String) (refs : RefMap),
    tier.foldl (appendStep d results) (blocks, refs) =
      (blocks ++ (appendOut d results tier).1,
       refs ++ (appendOut d results tier).2) := by
  intro tier
  induction tier with
  | nil => intro blocks refs; simp [appendOut]
  | cons nodeID rest ih =>
    intro blocks refs
    rw [List.foldl_cons]
    by_cases hh : (resultsByID results nodeID).hcl.length > 0
    · cases hnb : nodeByID d nodeID with
      | none =>
        have hstep : appendStep d results (blocks, refs) nodeID =
            (blocks ++ [(resultsByID results nodeID).hcl], refs) := by
          simp [appendStep, hh, hnb]
        rw [hstep, ih]
        rw [appendOut, hnb]
        simp [hh, List.append_assoc]
      | some node =>
        have hstep : appendStep d results (blocks, refs) nodeID =
            (blocks ++ [(resultsByID results nodeID).hcl],
             refs ++ [(nodeID, tfAddr node nodeID)]) := by
          simp [appendStep, hh, hnb, refSet, tfAddr]
        rw [hstep, ih]
        rw [appendOut, hnb]
        simp [hh, List.append_assoc]
    · have hstep : appendStep d results (blocks, refs) nodeID = (blocks, refs) := by
        simp [appendStep, hh]
      rw [hstep, ih]
      rw [appendOut]
      have hh' : ((resultsByID results nodeID).hcl.length > 0) = False := by
        simp [hh]
      simp only [hh']
      simp

/-- The results of the units of one tier, given the reference map the
tier starts with. -/
def tierResults (reg : Registry) (sched : List NodeResult → List NodeResult)
    (d : Diagram) (refs : RefMap) (tier : List String) : List NodeResult :=
  sched ((launchedUnits reg d tier).map fun p => runUnit p.2 d refs p.1)

/-- One tier of the engine in closed form. -/
lemma processTier_eq (reg : Registry) (sched : List NodeResult → List NodeResult)
    (d : Diagram) (out : ParseResult) (refs : RefMap) (blocks : List String)
    (tier : List String) :
    processTier reg sched d (out, refs, blocks) tier =
      ({ out with
          errors := out.errors ++ unsupErrors reg d tier ++
            ((tierResults reg sched d refs tier).map NodeResult.errs).flatten,
          warnings := out.warnings ++
            ((tierResults reg sched d refs tier).map NodeResult.warns).flatten,
          success := out.success && (unsupErrors reg d tier).isEmpty &&
            (tierResults reg sched d refs tier).all (fun r => r.errs.isEmpty) },
       refs ++ (appendOut d (tierResults reg sched d refs tier) tier).2,
       blocks ++ (appendOut d (tierResults reg sched d refs tier) tier).1) := by
  rw [processTier]
  rw [launch_fold reg d tier out []]
  rw [List.nil_append]
  rw [merge_fold]
  rw [List.nil_append]
  rw [append_fold]
  simp [tierResults, Bool.and_assoc, List.append_assoc]

/-- Cumulative effect of the engine over a list of tiers starting from
reference map `refs`: (errors, warnings, all-units-clean flag, blocks,
reference-map additions), each in tier-then-declaration (or arrival)
order exactly as `processTier` produces them. -/
def runTiers (reg : Registry) (sched : List NodeResult → List NodeResult)
    (d : Diagram) (refs : RefMap) :
    List (List String) → List Error × List Warning × Bool × List String × RefMap
  | [] => ([], [], true, [], [])
  | tier :: rest =>
    let results := tierResults reg sched d refs tier
    let add := appendOut d results tier
    let r := runTiers reg sched d (refs ++ add.2) rest
    (unsupErrors reg d tier ++ (results.map NodeResult.errs).flatten ++ r.1,
     (results.map NodeResult.warns).flatten ++ r.2.1,
     ((unsupErrors reg d tier).isEmpty && results.all (fun x => x.errs.isEmpty)) && r.2.2.1,
     add.1 ++ r.2.2.2.1,
     add.2 ++ r.2.2.2.2)

/-- The tier fold of `Parse` in closed form. -/
lemma tiers_fold_eq (reg : Registry) (sched : List NodeResult → List NodeResult)
    (d : Diagram) :
    ∀ (tiers : List (List String)) (out : ParseResult) (refs : RefMap)
      (blocks : List String),
    tiers.foldl (processTier reg sched d) (out, refs, blocks) =
      ({ out with
          errors := out.errors ++ (runTiers reg sched d refs tiers).1,
          warnings := out.warnings ++ (runTiers reg sched d refs tiers).2.1,
          success := out.success && (runTiers reg sched d refs tiers).2.2.1 },
       refs ++ (runTiers reg sched d refs tiers).2.2.2.2,
       blocks ++ (runTiers reg sched d refs tiers).2.2.2.1) := by
  intro tiers
  induction tiers with
  | nil => intro out refs blocks; simp [runTiers]
  | cons tier rest ih =>
    intro out refs blocks
    rw [List.foldl_cons, processTier_eq, ih]
    rw [runTiers]
    simp [List.append_assoc, Bool.and_assoc]

/-- The Terraform files `Parse` assembles on success from the collected
blocks (step 4 of `Parse`). -/
def buildFiles (tmpl : Templates) (opts : Options) (md : Metadata)
    (blocks : List String) : List (String × String) :=
  let b := NewBuilder opts.emitTfvars
  let b := SetVersions b tmpl.versionsTF
  let b := SetVariables b tmpl.variablesTF
  let b := SetOutputs b tmpl.outputsTF
  let b := blocks.foldl AddResource b
  let b := if opts.emitTfvars then SetTfvars b (tmpl.tfvarsFromMetadata md) else b
  Build b

/-- Unfolding `Parse` on a nil diagram. -/
lemma Parse_none_eq (reg : Registry) (tmpl : Templates) (enum : List String)
    (sched : List NodeResult → List NodeResult) (opts : Options) :
    Parse reg tmpl enum sched opts none =
      ({ success := false, terraformFiles := [],
         errors := [⟨"schema_error", "error", "", "diagram is nil", ""⟩],
         warnings := [] }, none) := rfl

/-- Unfolding `Parse` when schema validation fails. -/
lemma Parse_valfail_eq (reg : Registry) (tmpl : Templates) (enum : List String)
    (sched : List NodeResult → List NodeResult) (opts : Options)
    (od : Option Diagram) (e : Error) (es : List Error)
    (hval : Validate od = e :: es) :
    Parse reg tmpl enum sched opts od =
      ({ success := false, terraformFiles := [], errors := e :: es,
         warnings := [] }, none) := by
  rw [Parse.eq_def, hval]
  simp

/-- Unfolding `Parse` when the resolver reports a cycle. -/
lemma Parse_cycle_eq (reg : Registry) (tmpl : Templates) (enum : List String)
    (sched : List NodeResult → List NodeResult) (opts : Options) (d : Diagram)
    (hval : Validate (some d) = []) (msg : String)
    (hnc : (Resolve enum (some d)).2.2 = some msg) :
    Parse reg tmpl enum sched opts (some d) =
      ({ success := false, terraformFiles := [],
         errors := [⟨"dependency_error", "error", "", msg,
           "Remove circular edges or fix node references"⟩],
         warnings := [] }, none) := by
  rw [Parse.eq_def, hval]
  simp only [List.nil_append, List.length_nil, gt_iff_lt, Nat.lt_irrefl, if_false]
  rw [hnc]

/-- Unfolding `Parse` when generation runs: the closed form of the tier loop. -/
lemma Parse_gen_eq (reg : Registry) (tmpl : Templates) (enum : List String)
    (sched : List NodeResult → List NodeResult) (opts : Options) (d : Diagram)
    (hval : Validate (some d) = [])
    (hnc : (Resolve enum (some d)).2.2 = none) :
    Parse reg tmpl enum sched opts (some d) =
      (if (runTiers reg sched d [] (Resolve enum (some d)).2.1).2.2.1 = false then
        ({ success := false, terraformFiles := [],
           errors := (runTiers reg sched d [] (Resolve enum (some d)).2.1).1,
           warnings := (runTiers reg sched d [] (Resolve enum (some d)).2.1).2.1 },
         none)
       else
        ({ success := true,
           terraformFiles := buildFiles tmpl opts d.metadata
             (runTiers reg sched d [] (Resolve enum (some d)).2.1).2.2.2.1,
           errors := (runTiers reg sched d [] (Resolve enum (some d)).2.1).1,
           warnings := (runTiers reg sched d [] (Resolve enum (some d)).2.1).2.1 },
         none)) := by
  rw [Parse.eq_def, hval]
  simp only [List.nil_append, List.length_nil, gt_iff_lt, Nat.lt_irrefl, if_false]
  rw [hnc]
  rw [tiers_fold_eq]
  cases hok : (runTiers reg sched d [] (Resolve enum (some d)).2.1).2.2.1 with
  | false => simp [hok, buildFiles]
  | true => simp [hok, buildFiles]

/-- The all-units-clean flag of `runTiers` is exactly "no errors were
collected". -/
lemma runTiers_ok_iff (reg : Registry) (sched : List NodeResult → List NodeResult)
    (d : Diagram) :
    ∀ (tiers : List (List String)) (refs : RefMap),
    ((runTiers reg sched d refs tiers).2.2.1 = true ↔
      (runTiers reg sched d refs tiers).1 = []) := by
  intro tiers
  induction tiers with
  | nil => intro refs; simp [runTiers]
  | cons tier rest ih =>
    intro refs
    rw [runTiers]
    simp only [Bool.and_eq_true, List.append_eq_nil, List.all_eq_true,
      List.isEmpty_iff, List.flatten_eq_nil_iff, List.mem_map]
    constructor
    · rintro ⟨⟨h1, h2⟩, h3⟩
      refine ⟨⟨h1, ?_⟩, (ih _).1 h3⟩
      rintro l ⟨r, hr, hrl⟩
      rw [← hrl]
      exact h2 r hr
    · rintro ⟨⟨h1, h2⟩, h3⟩
      refine ⟨⟨h1, ?_⟩, (ih _).2 h3⟩
      intro r hr
      exact h2 r.errs ⟨r, hr, rfl⟩

/-- C5: a non-empty error list is exactly what makes `Success` false,
and in that case the output-file mapping is empty — warnings alone
neither fail the run nor suppress artifacts. -/
theorem C5_failure_iff_errors (reg : Registry) (tmpl : Templates)
    (enum : List String) (sched : List NodeResult → List NodeResult)
    (opts : Options) (od : Option Diagram) :
    ((Parse reg tmpl enum sched opts od).1.success = false ↔
      (Parse reg tmpl enum sched opts od).1.errors ≠ []) ∧
    ((Parse reg tmpl enum sched opts od).1.errors ≠ [] →
      (Parse reg tmpl enum sched opts od).1.terraformFiles = []) := by
  cases od with
  | none =>
    rw [Parse_none_eq]
    simp
  | some d =>
    cases hval : Validate (some d) with
    | cons e es =>
      rw [Parse_valfail_eq reg tmpl enum sched opts (some d) e es hval]
      simp
    | nil =>
      cases hnc : (Resolve enum (some d)).2.2 with
      | some msg =>
        rw [Parse_cycle_eq reg tmpl enum sched opts d hval msg hnc]
        simp
      | none =>
        rw [Parse_gen_eq reg tmpl enum sched opts d hval hnc]
        cases hok : (runTiers reg sched d [] (Resolve enum (some d)).2.1).2.2.1 with
        | false =>
          have herr : (runTiers reg sched d [] (Resolve enum (some d)).2.1).1 ≠ [] := by
            intro h
            rw [(runTiers_ok_iff reg sched d _ _).2 h] at hok
            cases hok
          simp [hok, herr]
        | true =>
          have herr : (runTiers reg sched d [] (Resolve enum (some d)).2.1).1 = [] :=
            (runTiers_ok_iff reg sched d _ _).1 hok
          simp [hok, herr]

/-- C10: `Parse` never returns a non-nil Go error; all failures are
reported through the result value. -/
theorem C10_parse_error_always_nil (reg : Registry) (tmpl : Templates)
    (enum : List String) (sched : List NodeResult → List NodeResult)
    (opts : Options) (od : Option Diagram) :
    (Parse reg tmpl enum sched opts od).2 = none := by
  cases od with
  | none => rw [Parse_none_eq]
  | some d =>
    cases hval : Validate (some d) with
    | cons e es => rw [Parse_valfail_eq reg tmpl enum sched opts (some d) e es hval]
    | nil =>
      cases hnc : (Resolve enum (some d)).2.2 with
      | some msg => rw [Parse_cycle_eq reg tmpl enum sched opts d hval msg hnc]
      | none =>
        rw [Parse_gen_eq reg tmpl enum sched opts d hval hnc]
        cases hok : (runTiers reg sched d [] (Resolve enum (some d)).2.1).2.2.1 with
        | false => simp [hok]
        | true => simp [hok]

/-- C4: a dependency cycle makes `Resolve` return exactly
`(nil, nil, ErrCycle)` — no partial structure — and `Parse` (past a
clean schema validation) then fails with exactly one
`dependency_error`, an empty file mapping and no generation attempted. -/
theorem C4_cycle_fail_fast (d : Diagram) (enum : List String) (reg : Registry)
    (tmpl : Templates) (sched : List NodeResult → List NodeResult)
    (opts : Options) (henum : ValidEnum d enum) (v : String)
    (hcyc : Relation.TransGen (dependsEdge d) v v)
    (hval : Validate (some d) = []) :
    Resolve enum (some d) = ([], [], some cycleMsg) ∧
    Parse reg tmpl enum sched opts (some d) =
      ({ success := false, terraformFiles := [],
         errors := [⟨"dependency_error", "error", "", cycleMsg,
           "Remove circular edges or fix node references"⟩],
         warnings := [] }, none) := by
  have hvid : v ∈ ids d := by
    cases hcyc with
    | single h => exact h.1
    | tail _ h => exact h.2.1
  have hne : d.nodes ≠ [] := by
    intro h
    rw [ids, h] at hvid
    cases hvid
  have hres : Resolve enum (some d) = ([], [], some cycleMsg) := by
    rw [Resolve_some d enum hne]
    have hlen : (resolveRun d enum).1.length ≠ (ids d).dedup.length := by
      intro hc
      obtain ⟨hflat, hnd, _, _, hgood⟩ := resolve_post d enum henum
      have hperm := resolve_perm_of_complete d enum henum hc
      have hcov : ∀ x, x ∈ ids d → x ∈ (resolveRun d enum).2.flatten := by
        intro x hx
        have hx1 : x ∈ (resolveRun d enum).1 :=
          hperm.mem_iff.2 (List.mem_dedup.2 hx)
        exact hflat ▸ hx1
      have hacyc := acyclic_of_tiers d (resolveRun d enum).2 (hflat ▸ hnd) hcov hgood
      exact hacyc v hcyc
    have hT : ((resolveRun d enum).1.length != (ids d).dedup.length) = true :=
      bne_iff_ne.2 hlen
    rw [hT]
    simp
  refine ⟨hres, ?_⟩
  have hnc : (Resolve enum (some d)).2.2 = some cycleMsg := by rw [hres]
  exact Parse_cycle_eq reg tmpl enum sched opts d hval cycleMsg hnc

/-- Concrete template bytes, identity completion order and an empty
registry for witnesses and counterexamples. -/
def tmplW : Templates := ⟨"VERSIONS", "VARIABLES", "", fun _ => "TFVARS"⟩

/-- Identity goroutine-completion order. -/
def schedW : List NodeResult → List NodeResult := fun l => l

/-- A registry with no handlers registered. -/
def regEmpty : Registry := fun _ => none

/-- Shorthand node constructor for fixtures. -/
def nodeW (i t : String) : Node := ⟨i, t, "", ⟨0, 0⟩, []⟩

/-- Shorthand edge constructor for fixtures. -/
def edgeW (i s t : String) : Edge := ⟨i, s, t, "", []⟩

/-- A two-node diagram with a dependency 2-cycle a → b → a. -/
def dW4 : Diagram := ⟨⟨"1.0", "w", "", ""⟩,
  [nodeW "a" "vpc", nodeW "b" "vpc"], [edgeW "e1" "a" "b", edgeW "e2" "b" "a"]⟩

lemma dW4_ab : dependsEdge dW4 "a" "b" :=
  ⟨by decide, by decide, by decide, edgeW "e1" "a" "b",
    List.mem_cons_self _ _, rfl, rfl⟩

lemma dW4_ba : dependsEdge dW4 "b" "a" :=
  ⟨by decide, by decide, by decide, edgeW "e2" "b" "a",
    List.mem_cons_of_mem _ (List.mem_cons_self _ _), rfl, rfl⟩

/-- Witness for C4 on the concrete 2-cycle. -/
theorem C4_witness :
    Resolve ["a", "b"] (some dW4) = ([], [], some cycleMsg) ∧
    Parse regEmpty tmplW ["a", "b"] schedW ⟨true, 0⟩ (some dW4) =
      ({ success := false, terraformFiles := [],
         errors := [⟨"dependency_error", "error", "", cycleMsg,
           "Remove circular edges or fix node references"⟩],
         warnings := [] }, none) :=
  C4_cycle_fail_fast dW4 ["a", "b"] regEmpty tmplW schedW ⟨true, 0⟩
    ⟨by decide, fun x => Iff.rfl⟩ "a"
    (Relation.TransGen.head dW4_ab (Relation.TransGen.single dW4_ba))
    (by rfl)

/-- C6: once generation starts (schema valid, no cycle), the errors and
warnings `Parse` returns are exactly the concatenation `runTiers`
computes over **every** tier — `runTiers` unconditionally visits each
tier and each launched unit, so an error in one tier never suppresses
the validation/generation output of the others; only schema validation
and cycle detection return before generation. -/
theorem C6_all_tiers_still_execute (reg : Registry) (tmpl : Templates)
    (enum : List String) (sched : List NodeResult → List NodeResult)
    (opts : Options) (d : Diagram)
    (hval : Validate (some d) = [])
    (hnc : (Resolve enum (some d)).2.2 = none) :
    (Parse reg tmpl enum sched opts (some d)).1.errors =
      (runTiers reg sched d [] (Resolve enum (some d)).2.1).1 ∧
    (Parse reg tmpl enum sched opts (some d)).1.warnings =
      (runTiers reg sched d [] (Resolve enum (some d)).2.1).2.1 := by
  rw [Parse_gen_eq reg tmpl enum sched opts d hval hnc]
  cases hok : (runTiers reg sched d [] (Resolve enum (some d)).2.1).2.2.1 with
  | false => simp [hok]
  | true => simp [hok]

/-- A handler whose validation fails exactly for node id `"a"`. -/
def hW6 : ResourceHandler :=
  ⟨"t",
   fun n => (if n.id == "a"
     then [⟨"validation_error", "error", n.id, "bad", "fix"⟩] else [], []),
   fun n _ _ => (n.id, none)⟩

/-- Registry carrying only `hW6` under kind `"t"`. -/
def regW6 : Registry := fun t => if t == "t" then some hW6 else none

/-- Two nodes of kind `"t"` in a single tier. -/
def dW6 : Diagram :=
  ⟨⟨"1.0", "w", "", ""⟩, [nodeW "a" "t", nodeW "b" "t"], []⟩

/-- Witness for C6: node a errors, node b still runs. -/
theorem C6_witness :
    (Parse regW6 tmplW ["a", "b"] schedW ⟨true, 0⟩ (some dW6)).1.errors =
      (runTiers regW6 schedW dW6 [] (Resolve ["a", "b"] (some dW6)).2.1).1 ∧
    (Parse regW6 tmplW ["a", "b"] schedW ⟨true, 0⟩ (some dW6)).1.warnings =
      (runTiers regW6 schedW dW6 [] (Resolve ["a", "b"] (some dW6)).2.1).2.1 :=
  C6_all_tiers_still_execute regW6 tmplW ["a", "b"] schedW ⟨true, 0⟩ dW6
    (by rfl) (by rfl)

/-- A trivial handler whose artifact is the node id. -/
def hToy : ResourceHandler := ⟨"toy", fun _ => ([], []), fun n _ _ => (n.id, none)⟩

/-- Registry carrying only `hToy` under kind `"toy"`. -/
def regToy : Registry := fun t => if t == "toy" then some hToy else none

/-- Two independent toy nodes (declaration order a, b). -/
def dC2 : Diagram :=
  ⟨⟨"1.0", "w", "", ""⟩, [nodeW "a" "toy", nodeW "b" "toy"], []⟩

/-- C2 (divergence witness): the same diagram parsed under two legal
iteration orders of the Go `nodeSet` map — i.e. two runs of the same
program — produces different `main.tf` bytes and differently ordered
error lists, so `Parse` is not run-to-run deterministic. -/
theorem C2_parse_run_dependent :
    ValidEnum dC2 ["a", "b"] ∧ ValidEnum dC2 ["b", "a"] ∧
    (Parse regToy tmplW ["a", "b"] schedW ⟨true, 0⟩ (some dC2)).1.terraformFiles.lookup
        "main.tf" = some "a\n\nb" ∧
    (Parse regToy tmplW ["b", "a"] schedW ⟨true, 0⟩ (some dC2)).1.terraformFiles.lookup
        "main.tf" = some "b\n\na" ∧
    ("a\n\nb" : String) ≠ "b\n\na" ∧
    (Parse regEmpty tmplW ["a", "b"] schedW ⟨true, 0⟩ (some dC2)).1.errors ≠
      (Parse regEmpty tmplW ["b", "a"] schedW ⟨true, 0⟩ (some dC2)).1.errors := by
  refine ⟨⟨by decide, fun x => by simp [ids, dC2, nodeW]⟩,
    ⟨by decide, fun x => by simp [ids, dC2, nodeW, or_comm]⟩, by rfl, by rfl,
    by decide, by decide⟩

/-- A diagram whose declaration order is b, a. -/
def dC3 : Diagram :=
  ⟨⟨"1.0", "w", "", ""⟩, [nodeW "b" "vpc", nodeW "a" "vpc"], []⟩

/-- C3 (divergence witness): under the legal map iteration order
[a, b], the single tier of a two-node edgeless diagram declared [b, a]
comes out as [a, b] — map iteration order, not declaration order. -/
theorem C3_tier_not_declaration_order :
    ValidEnum dC3 ["a", "b"] ∧
    Resolve ["a", "b"] (some dC3) = (["a", "b"], [["a", "b"]], none) ∧
    ids dC3 = ["b", "a"] ∧
    (["a", "b"] : List String) ≠ ["b", "a"] := by
  refine ⟨⟨by decide, fun x => by simp [ids, dC3, nodeW, or_comm]⟩, by rfl, by rfl,
    by decide⟩

/-- C9 (divergence): `Parse` never consults `MaxParallel` — its result
is identical for any two option values that agree on `EmitTfvars` —
while `parserNew` normalises `MaxParallel = 1` to 1 and the launch loop
of a two-node tier still starts 2 concurrent units before the only
join point (`wg.Wait`). -/
theorem C9_maxparallel_never_enforced :
    (∀ (reg : Registry) (tmpl : Templates) (enum : List String)
       (sched : List NodeResult → List NodeResult) (od : Option Diagram)
       (e : Bool) (m m' : Int),
      Parse reg tmpl enum sched ⟨e, m⟩ od = Parse reg tmpl enum sched ⟨e, m'⟩ od) ∧
    (parserNew 8 ⟨true, 1⟩).maxParallel = 1 ∧
    (launchedUnits regToy dC2 ["a", "b"]).length = 2 := by
  refine ⟨?_, by rfl, by rfl⟩
  intro reg tmpl enum sched od e m m'
  rfl

/-- A single node of an unregistered kind. -/
def dW8 : Diagram := ⟨⟨"1.0", "w", "", ""⟩, [nodeW "a" "foo"], []⟩

/-- C8 (counterexample): the error recorded for an unregistered kind
has `Type = "validation_error"`; no error of type `"unsupported_kind"`
is ever produced. -/
theorem C8_counterexample :
    (Parse regEmpty tmplW ["a"] schedW ⟨true, 0⟩ (some dW8)).1.errors =
      [⟨"validation_error", "error", "a", "unsupported resource type: foo",
        unsupSuggestion⟩] ∧
    ∀ er ∈ (Parse regEmpty tmplW ["a"] schedW ⟨true, 0⟩ (some dW8)).1.errors,
      er.typ ≠ "unsupported_kind" := by
  constructor
  · rfl
  · decide

/-- Lemma: `runTiers` over a concatenation decomposes, the second part running
from the reference map extended by the first part's additions. -/
lemma runTiers_append (reg : Registry) (sched : List NodeResult → List NodeResult)
    (d : Diagram) :
    ∀ (T1 T2 : List (List String)) (refs : RefMap),
    ((runTiers reg sched d refs (T1 ++ T2)).1 =
      (runTiers reg sched d refs T1).1 ++
      (runTiers reg sched d (refs ++ (runTiers reg sched d refs T1).2.2.2.2) T2).1) ∧
    ((runTiers reg sched d refs (T1 ++ T2)).2.2.2.2 =
      (runTiers reg sched d refs T1).2.2.2.2 ++
      (runTiers reg sched d (refs ++ (runTiers reg sched d refs T1).2.2.2.2)
        T2).2.2.2.2) := by
  intro T1
  induction T1 with
  | nil =>
    intro T2 refs
    constructor <;> simp [runTiers]
  | cons tier rest ih =>
    intro T2 refs
    rw [List.cons_append, runTiers, runTiers]
    obtain ⟨ih1, ih2⟩ := ih T2 (refs ++
      (appendOut d (tierResults reg sched d refs tier) tier).2)
    constructor
    · simp only []
      rw [ih1]
      simp [List.append_assoc]
    · simp only []
      rw [ih2]
      simp [List.append_assoc]

lemma take_succ_get {tiers : List (List String)} {i : Nat} (hi : i < tiers.length) :
    tiers.take (i + 1) = tiers.take i ++ [tiers.get ⟨i, hi⟩] := by
  rw [List.take_succ]
  congr
  rw [List.getElem?_eq_getElem hi]
  rfl

/-- The reference map as it stands when tier `i` begins — the map the
units of tier `i` read (`processTier` passes the incoming map to every
unit and only appends to it after the merge). -/
def engineRefs (reg : Registry) (sched : List NodeResult → List NodeResult)
    (d : Diagram) (tiers : List (List String)) (i : Nat) : RefMap :=
  (runTiers reg sched d [] (tiers.take i)).2.2.2.2

/-- Across one tier boundary the reference map is extended, by exactly
the entries the block-append loop of that tier produces. -/
lemma engineRefs_succ (reg : Registry) (sched : List NodeResult → List NodeResult)
    (d : Diagram) (tiers : List (List String)) {i : Nat} (hi : i < tiers.length) :
    engineRefs reg sched d tiers (i + 1) =
      engineRefs reg sched d tiers i ++
      (appendOut d
        (tierResults reg sched d (engineRefs reg sched d tiers i)
          (tiers.get ⟨i, hi⟩))
        (tiers.get ⟨i, hi⟩)).2 := by
  unfold engineRefs
  rw [take_succ_get hi]
  rw [(runTiers_append reg sched d (tiers.take i) [tiers.get ⟨i, hi⟩] []).2]
  rw [runTiers, runTiers]
  simp

lemma refGet_none_iff :
    ∀ (m : RefMap) (k : String),
    (refGet m k = none ↔ ∀ p ∈ m, p.1 ≠ k) := by
  have key : ∀ (m : List (String × String)) (acc : Option String) (k : String),
      (m.foldl (fun acc p => if p.1 == k then some p.2 else acc) acc = none ↔
        acc = none ∧ ∀ p ∈ m, p.1 ≠ k) := by
    intro m
    induction m with
    | nil => intro acc k; simp
    | cons p rest ih =>
      intro acc k
      rw [List.foldl_cons]
      by_cases hp : p.1 = k
      · have hb : (p.1 == k) = true := beq_iff_eq.2 hp
        rw [hb]
        simp only [if_true]
        rw [ih]
        simp [hp]
      · have hb : (p.1 == k) = false := beq_eq_false_iff_ne.2 hp
        rw [hb]
        simp only [Bool.false_eq_true, if_false]
        rw [ih]
        simp [hp]
  intro m k
  rw [refGet, key]
  simp

/-- Membership in the reference-map additions of one tier: exactly the
tier's nodes whose unit produced non-empty bytes, with the
deterministic address. -/
lemma appendOut_mem (d : Diagram) (results : List NodeResult) :
    ∀ (tier : List String) (v val : String),
    ((v, val) ∈ (appendOut d results tier).2 ↔
      (v ∈ tier ∧ (resultsByID results v).hcl.length > 0 ∧
        ∃ node, nodeByID d v = some node ∧ val = tfAddr node v)) := by
  intro tier
  induction tier with
  | nil => intro v val; simp [appendOut]
  | cons nodeID rest ih =>
    intro v val
    rw [appendOut]
    by_cases hh : (resultsByID results nodeID).hcl.length > 0
    · cases hnb : nodeByID d nodeID with
      | none =>
        simp only [hh, if_true, hnb]
        rw [ih]
        constructor
        · rintro ⟨hm, hres, node, hn, hv⟩
          exact ⟨List.mem_cons_of_mem _ hm, hres, node, hn, hv⟩
        · rintro ⟨hm, hres, node, hn, hv⟩
          rcases List.mem_cons.1 hm with heq | hm'
          · subst heq
            rw [hn] at hnb
            cases hnb
          · exact ⟨hm', hres, node, hn, hv⟩
      | some node0 =>
        simp only [hh, if_true, hnb]
        constructor
        · intro hm
          rcases List.mem_cons.1 hm with heq | hm'
          · have hv : v = nodeID := congrArg Prod.fst heq
            have hval : val = tfAddr node0 nodeID := congrArg Prod.snd heq
            subst hv
            exact ⟨List.mem_cons_self _ _, hh, node0, hnb, hval⟩
          · obtain ⟨hm2, hres, node, hn, hv⟩ := (ih v val).1 hm'
            exact ⟨List.mem_cons_of_mem _ hm2, hres, node, hn, hv⟩
        · rintro ⟨hm, hres, node, hn, hv⟩
          rcases List.mem_cons.1 hm with heq | hm'
          · subst heq
            rw [hn] at hnb
            have hnode : node = node0 := by injection hnb
            rw [hv, hnode]
            exact List.mem_cons_self _ _
          · exact List.mem_cons_of_mem _ ((ih v val).2 ⟨hm', hres, node, hn, hv⟩)
    · simp only [hh, if_false]
      rw [ih]
      constructor
      · rintro ⟨hm, hres, node, hn, hv⟩
        exact ⟨List.mem_cons_of_mem _ hm, hres, node, hn, hv⟩
      · rintro ⟨hm, hres, node, hn, hv⟩
        rcases List.mem_cons.1 hm with heq | hm'
        · subst heq
          exact absurd hres hh
        · exact ⟨hm', hres, node, hn, hv⟩

/-- The additions of one tier carry duplicate-free keys when the tier
itself is duplicate-free. -/
lemma appendOut_keys_nodup (d : Diagram) (results : List NodeResult) :
    ∀ (tier : List String), tier.Nodup →
    ((appendOut d results tier).2.map Prod.fst).Nodup := by
  intro tier
  induction tier with
  | nil => intro _; simp [appendOut]
  | cons nodeID rest ih =>
    intro hnd
    obtain ⟨hni, hrest⟩ := List.nodup_cons.1 hnd
    rw [appendOut]
    by_cases hh : (resultsByID results nodeID).hcl.length > 0
    · cases hnb : nodeByID d nodeID with
      | none =>
        simp only [hh, if_true, hnb]
        exact ih hrest
      | some node0 =>
        simp only [hh, if_true, hnb, List.map_cons]
        refine List.nodup_cons.2 ⟨?_, ih hrest⟩
        intro hmem
        obtain ⟨p, hp, hfst⟩ := List.mem_map.1 hmem
        have := (appendOut_mem d results rest p.1 p.2).1 hp
        exact hni (hfst ▸ this.1)
    · simp only [hh, if_false]
      exact ih hrest

/-- Accumulated reference-map facts: every entry of the map tier `i`
starts with points at a node of an earlier tier with the deterministic
address; keys are unique; and a key is present exactly when its node
sits in an earlier tier and its unit produced non-empty bytes. -/
lemma engineRefs_facts (reg : Registry) (sched : List NodeResult → List NodeResult)
    (d : Diagram) (tiers : List (List String)) (hnd : tiers.flatten.Nodup) :
    ∀ i, i ≤ tiers.length →
      ((∀ p, p ∈ engineRefs reg sched d tiers i →
          p.1 ∈ (tiers.take i).flatten ∧
          ∃ node, nodeByID d p.1 = some node ∧ p.2 = tfAddr node p.1) ∧
       ((engineRefs reg sched d tiers i).map Prod.fst).Nodup ∧
       (∀ v, (∃ val, (v, val) ∈ engineRefs reg sched d tiers i) ↔
          ∃ j, ∃ hj : j < tiers.length, j < i ∧ v ∈ tiers.get ⟨j, hj⟩ ∧
            (resultsByID (tierResults reg sched d (engineRefs reg sched d tiers j)
              (tiers.get ⟨j, hj⟩)) v).hcl.length > 0 ∧
            (nodeByID d v).isSome)) := by
  intro i
  induction i with
  | zero =>
    intro _
    refine ⟨?_, ?_, ?_⟩
    · intro p hp
      simp [engineRefs, runTiers] at hp
    · simp [engineRefs, runTiers]
    · intro v
      constructor
      · rintro ⟨val, hval⟩
        simp [engineRefs, runTiers] at hval
      · rintro ⟨j, hj, hji, _⟩
        omega
  | succ n ihn =>
    intro hle
    have hn : n < tiers.length := by omega
    obtain ⟨E1, E2, E3⟩ := ihn (by omega)
    have hstep := engineRefs_succ reg sched d tiers hn
    have htier_nodup : (tiers.get ⟨n, hn⟩).Nodup :=
      (List.nodup_flatten.1 hnd).1 _ (tiers.get_mem _ _)
    have hkey_tier : ∀ p, p ∈ (appendOut d
        (tierResults reg sched d (engineRefs reg sched d tiers n)
          (tiers.get ⟨n, hn⟩)) (tiers.get ⟨n, hn⟩)).2 →
        p.1 ∈ tiers.get ⟨n, hn⟩ := by
      intro p hp
      exact ((appendOut_mem d _ _ p.1 p.2).1 hp).1
    have hdisj : ∀ x, x ∈ (tiers.take n).flatten → x ∈ tiers.get ⟨n, hn⟩ → False := by
      intro x hx1 hx2
      obtain ⟨i', hi', hlt, hmem⟩ := mem_take_flatten hx1
      have := unique_tier hnd hi' hn hmem hx2
      omega
    refine ⟨?_, ?_, ?_⟩
    · intro p hp
      rw [hstep] at hp
      rcases List.mem_append.1 hp with hold | hnew
      · obtain ⟨hmem, node, hnode, haddr⟩ := E1 p hold
        refine ⟨?_, node, hnode, haddr⟩
        rw [take_succ_get hn, List.flatten_append]
        exact List.mem_append.2 (Or.inl hmem)
      · obtain ⟨hmem, _, node, hnode, haddr⟩ := (appendOut_mem d _ _ p.1 p.2).1 hnew
        refine ⟨?_, node, hnode, haddr⟩
        rw [take_succ_get hn, List.flatten_append]
        refine List.mem_append.2 (Or.inr ?_)
        simpa using hmem
    · rw [hstep, List.map_append]
      rw [List.nodup_append]
      refine ⟨E2, appendOut_keys_nodup d _ _ htier_nodup, ?_⟩
      intro x hx1 hx2
      obtain ⟨p, hp, hfst⟩ := List.mem_map.1 hx1
      obtain ⟨q, hq, hfst2⟩ := List.mem_map.1 hx2
      have hx_take : x ∈ (tiers.take n).flatten := hfst ▸ (E1 p hp).1
      have hx_tier : x ∈ tiers.get ⟨n, hn⟩ := hfst2 ▸ hkey_tier q hq
      exact hdisj x hx_take hx_tier
    · intro v
      constructor
      · rintro ⟨val, hval⟩
        rw [hstep] at hval
        rcases List.mem_append.1 hval with hold | hnew
        · obtain ⟨j, hj, hji, hrest⟩ := (E3 v).1 ⟨val, hold⟩
          exact ⟨j, hj, by omega, hrest⟩
        · obtain ⟨hmem, hres, node, hnode, _⟩ := (appendOut_mem d _ _ v val).1 hnew
          exact ⟨n, hn, by omega, hmem, hres, by rw [hnode]; rfl⟩
      · rintro ⟨j, hj, hji, hmem, hres, hsome⟩
        rcases Nat.lt_succ_iff_lt_or_eq.1 hji with hlt | heq
        · obtain ⟨val, hval⟩ := (E3 v).2 ⟨j, hj, hlt, hmem, hres, hsome⟩
          exact ⟨val, by rw [hstep]; exact List.mem_append.2 (Or.inl hval)⟩
        · subst heq
          obtain ⟨node, hnode⟩ := Option.isSome_iff_exists.1 hsome
          refine ⟨tfAddr node v, ?_⟩
          rw [hstep]
          refine List.mem_append.2 (Or.inr ?_)
          exact (appendOut_mem d _ _ v (tfAddr node v)).2 ⟨hmem, hres, node, hnode, rfl⟩
  
/-- C7: the reference-map invariant.  At the start of tier `i`: the map
is extended only at the tier boundary (by exactly the block-append
loop's entries for tier `i`); every entry points at a node of an
earlier tier and carries the deterministic address
`terraformResourceType(type) ++ "." ++ SanitizeName(id)`; there is at
most one entry per node, present exactly when the node's unit produced
an artifact; and no node of tier `i` or a later tier has an entry —
the map the units of tier `i` read holds no forward references. -/
theorem C7_refmap_invariant (reg : Registry)
    (sched : List NodeResult → List NodeResult) (d : Diagram)
    (tiers : List (List String)) (hnd : tiers.flatten.Nodup)
    (i : Nat) (hi : i ≤ tiers.length) :
    ((∀ hi' : i < tiers.length,
        engineRefs reg sched d tiers (i + 1) =
          engineRefs reg sched d tiers i ++
          (appendOut d (tierResults reg sched d (engineRefs reg sched d tiers i)
            (tiers.get ⟨i, hi'⟩)) (tiers.get ⟨i, hi'⟩)).2) ∧
     (∀ p ∈ engineRefs reg sched d tiers i,
        p.1 ∈ (tiers.take i).flatten ∧
        ∃ node, nodeByID d p.1 = some node ∧ p.2 = tfAddr node p.1) ∧
     ((engineRefs reg sched d tiers i).map Prod.fst).Nodup ∧
     (∀ v, (∃ val, (v, val) ∈ engineRefs reg sched d tiers i) ↔
        ∃ j, ∃ hj : j < tiers.length, j < i ∧ v ∈ tiers.get ⟨j, hj⟩ ∧
          (resultsByID (tierResults reg sched d (engineRefs reg sched d tiers j)
            (tiers.get ⟨j, hj⟩)) v).hcl.length > 0 ∧
          (nodeByID d v).isSome) ∧
     (∀ j (hj : j < tiers.length), i ≤ j →
        ∀ v ∈ tiers.get ⟨j, hj⟩,
          refGet (engineRefs reg sched d tiers i) v = none)) := by
  obtain ⟨E1, E2, E3⟩ := engineRefs_facts reg sched d tiers hnd i hi
  refine ⟨fun hi' => engineRefs_succ reg sched d tiers hi', E1, E2, E3, ?_⟩
  intro j hj hij v hv
  rw [refGet_none_iff]
  intro p hp hpv
  have hx_take : v ∈ (tiers.take i).flatten := hpv ▸ (E1 p hp).1
  obtain ⟨i', hi'', hlt, hmem⟩ := mem_take_flatten hx_take
  have := unique_tier hnd hi'' hj hmem hv
  omega

/-- A two-tier chain fixture for the C7 witness. -/
def dW7 : Diagram := ⟨⟨"1.0", "w", "", ""⟩,
  [nodeW "v" "toy", nodeW "s" "toy"], [edgeW "e1" "v" "s"]⟩

/-- Witness for C7 at tier boundary 1 of a concrete two-tier run. -/
theorem C7_witness :
    ((∀ hi' : 1 < ([["v"], ["s"]] : List (List String)).length,
        engineRefs regToy schedW dW7 [["v"], ["s"]] 2 =
          engineRefs regToy schedW dW7 [["v"], ["s"]] 1 ++
          (appendOut dW7 (tierResults regToy schedW dW7
            (engineRefs regToy schedW dW7 [["v"], ["s"]] 1)
            (([["v"], ["s"]] : List (List String)).get ⟨1, hi'⟩))
            (([["v"], ["s"]] : List (List String)).get ⟨1, hi'⟩)).2) ∧
     (∀ p ∈ engineRefs regToy schedW dW7 [["v"], ["s"]] 1,
        p.1 ∈ (([["v"], ["s"]] : List (List String)).take 1).flatten ∧
        ∃ node, nodeByID dW7 p.1 = some node ∧ p.2 = tfAddr node p.1) ∧
     ((engineRefs regToy schedW dW7 [["v"], ["s"]] 1).map Prod.fst).Nodup ∧
     (∀ v, (∃ val, (v, val) ∈ engineRefs regToy schedW dW7 [["v"], ["s"]] 1) ↔
        ∃ j, ∃ hj : j < ([["v"], ["s"]] : List (List String)).length, j < 1 ∧
          v ∈ ([["v"], ["s"]] : List (List String)).get ⟨j, hj⟩ ∧
          (resultsByID (tierResults regToy schedW dW7
            (engineRefs regToy schedW dW7 [["v"], ["s"]] j)
            (([["v"], ["s"]] : List (List String)).get ⟨j, hj⟩)) v).hcl.length > 0 ∧
          (nodeByID dW7 v).isSome) ∧
     (∀ j (hj : j < ([["v"], ["s"]] : List (List String)).length), 1 ≤ j →
        ∀ v ∈ ([["v"], ["s"]] : List (List String)).get ⟨j, hj⟩,
          refGet (engineRefs regToy schedW dW7 [["v"], ["s"]] 1) v = none)) :=
  C7_refmap_invariant regToy schedW dW7 [["v"], ["s"]] (by decide) 1 (by decide)

/-- Any error a tier contributes — unsupported-type or unit error —
appears in the run's accumulated error list. -/
lemma runTiers_tier_errs (reg : Registry)
    (sched : List NodeResult → List NodeResult) (d : Diagram)
    (tiers : List (List String)) (i : Nat) (hi : i < tiers.length) (er : Error)
    (her : er ∈ unsupErrors reg d (tiers.get ⟨i, hi⟩) ∨
      er ∈ ((tierResults reg sched d (engineRefs reg sched d tiers i)
        (tiers.get ⟨i, hi⟩)).map NodeResult.errs).flatten) :
    er ∈ (runTiers reg sched d [] tiers).1 := by
  have hsplit : tiers.take i ++ tiers.drop i = tiers := List.take_append_drop i tiers
  have hdrop : tiers.drop i = tiers.get ⟨i, hi⟩ :: tiers.drop (i + 1) := by
    rw [List.drop_eq_getElem_cons hi]
    rfl
  rw [← hsplit, (runTiers_append reg sched d _ _ []).1]
  refine List.mem_append.2 (Or.inr ?_)
  have hrefs : (([] : RefMap) ++
      (runTiers reg sched d [] (tiers.take i)).2.2.2.2) =
      engineRefs reg sched d tiers i := by
    simp [engineRefs]
  rw [hdrop, hrefs, runTiers]
  rcases her with h | h
  · simp only [List.mem_append, List.mem_flatten, List.mem_map]
    exact Or.inl (Or.inl (by simpa using h))
  · simp only [List.mem_append, List.mem_flatten, List.mem_map]
    refine Or.inl (Or.inr ?_)
    simp only [List.mem_flatten, List.mem_map] at h
    obtain ⟨l, ⟨r, hr, hrl⟩, hel⟩ := h
    subst hrl
    exact ⟨NodeResult.errs r, ⟨r, by simpa using hr, rfl⟩, hel⟩

lemma nodeByID_id (d : Diagram) (idv : String) :
    ∀ n, nodeByID d idv = some n → n.id = idv := by
  have key : ∀ (l : List Node) (acc : Option Node),
      (∀ n0, acc = some n0 → n0.id = idv) →
      ∀ n, l.foldl (fun acc n => if n.id == idv then some n else acc) acc = some n →
        n.id = idv := by
    intro l
    induction l with
    | nil => intro acc hacc n h; exact hacc n h
    | cons m rest ih =>
      intro acc hacc n h
      rw [List.foldl_cons] at h
      by_cases hm : m.id = idv
      · have hb : (m.id == idv) = true := beq_iff_eq.2 hm
        rw [hb] at h
        refine ih _ ?_ n (by simpa using h)
        intro n0 h0
        injection h0 with h0
        rw [← h0]
        exact hm
      · have hb : (m.id == idv) = false := beq_eq_false_iff_ne.2 hm
        rw [hb] at h
        exact ih _ hacc n (by simpa using h)
  intro n h
  exact key d.nodes none (by intro n0 h0; cases h0) n h

lemma launchedUnits_mem (reg : Registry) (d : Diagram) :
    ∀ (tier : List String) (p : Node × ResourceHandler),
    p ∈ launchedUnits reg d tier →
    ∃ m, m ∈ tier ∧ nodeByID d m = some p.1 ∧ reg p.1.typ = some p.2 := by
  intro tier
  induction tier with
  | nil => intro p hp; simp [launchedUnits] at hp
  | cons nodeID rest ih =>
    intro p hp
    rw [launchedUnits] at hp
    cases hnb : nodeByID d nodeID with
    | none =>
      simp only [hnb] at hp
      obtain ⟨m, hm, h1, h2⟩ := ih p hp
      exact ⟨m, List.mem_cons_of_mem _ hm, h1, h2⟩
    | some node =>
      simp only [hnb] at hp
      cases hreg : reg node.typ with
      | none =>
        simp only [hreg] at hp
        obtain ⟨m, hm, h1, h2⟩ := ih p hp
        exact ⟨m, List.mem_cons_of_mem _ hm, h1, h2⟩
      | some h =>
        simp only [hreg] at hp
        rcases List.mem_cons.1 hp with heq | hp'
        · subst heq
          exact ⟨nodeID, List.mem_cons_self _ _, hnb, hreg⟩
        · obtain ⟨m, hm, h1, h2⟩ := ih p hp'
          exact ⟨m, List.mem_cons_of_mem _ hm, h1, h2⟩

lemma unsupErrors_mem (reg : Registry) (d : Diagram) :
    ∀ (tier : List String) (nodeID : String) (node : Node),
    nodeID ∈ tier → nodeByID d nodeID = some node → reg node.typ = none →
    (⟨"validation_error", "error", nodeID,
      "unsupported resource type: " ++ node.typ, unsupSuggestion⟩ : Error) ∈
      unsupErrors reg d tier := by
  intro tier
  induction tier with
  | nil => intro nodeID node h; cases h
  | cons m rest ih =>
    intro nodeID node hmem hnb hreg
    rw [unsupErrors]
    rcases List.mem_cons.1 hmem with heq | hmem'
    · subst heq
      simp only [hnb, hreg]
      exact List.mem_cons_self _ _
    · cases hnb' : nodeByID d m with
      | none =>
        simp only [hnb']
        exact ih nodeID node hmem' hnb hreg
      | some node' =>
        cases hreg' : reg node'.typ with
        | none =>
          simp only [hnb', hreg']
          exact List.mem_cons_of_mem _ (ih nodeID node hmem' hnb hreg)
        | some h =>
          simp only [hnb', hreg']
          exact ih nodeID node hmem' hnb hreg

/-- C8 (amended): a node of an unregistered kind yields a collected
error of type `validation_error` (message "unsupported resource type:
<kind>") tagged with that node's id, the run is marked failed, and the
node is never launched as a generation unit, while all other units of
its tier and of later tiers still run (their errors appear in the same
list, per `runTiers`). -/
theorem C8_unsupported_kind_behaviour (reg : Registry) (tmpl : Templates)
    (enum : List String) (sched : List NodeResult → List NodeResult)
    (opts : Options) (d : Diagram)
    (hval : Validate (some d) = [])
    (hnc : (Resolve enum (some d)).2.2 = none)
    (i : Nat) (hi : i < (Resolve enum (some d)).2.1.length)
    (nodeID : String) (node : Node)
    (hmem : nodeID ∈ (Resolve enum (some d)).2.1.get ⟨i, hi⟩)
    (hnb : nodeByID d nodeID = some node)
    (hreg : reg node.typ = none) :
    (⟨"validation_error", "error", nodeID,
      "unsupported resource type: " ++ node.typ, unsupSuggestion⟩ : Error) ∈
      (Parse reg tmpl enum sched opts (some d)).1.errors ∧
    (Parse reg tmpl enum sched opts (some d)).1.success = false ∧
    (∀ p ∈ launchedUnits reg d ((Resolve enum (some d)).2.1.get ⟨i, hi⟩),
      p.1.id ≠ nodeID) := by
  have hmem_err := runTiers_tier_errs reg sched d (Resolve enum (some d)).2.1 i hi
    _ (Or.inl (unsupErrors_mem reg d _ nodeID node hmem hnb hreg))
  have hne : (runTiers reg sched d [] (Resolve enum (some d)).2.1).1 ≠ [] := by
    intro h
    rw [h] at hmem_err
    cases hmem_err
  have hok : (runTiers reg sched d [] (Resolve enum (some d)).2.1).2.2.1 = false := by
    cases hok' : (runTiers reg sched d [] (Resolve enum (some d)).2.1).2.2.1 with
    | true => exact absurd ((runTiers_ok_iff reg sched d _ _).1 hok') hne
    | false => rfl
  rw [Parse_gen_eq reg tmpl enum sched opts d hval hnc, hok]
  refine ⟨by simpa using hmem_err, by simp, ?_⟩
  intro p hp heq
  obtain ⟨m, hmtier, hmn, hmh⟩ := launchedUnits_mem reg d _ p hp
  have hid : p.1.id = m := nodeByID_id d m p.1 hmn
  rw [hid] at heq
  subst heq
  rw [hnb] at hmn
  have : p.1 = node := by injection hmn.symm
  rw [this] at hmh
  rw [hreg] at hmh
  cases hmh

/-- One unsupported node beside one handled node. -/
def dW8b : Diagram :=
  ⟨⟨"1.0", "w", "", ""⟩, [nodeW "a" "foo", nodeW "b" "toy"], []⟩

lemma dW8b_tier_len : 0 < (Resolve ["a", "b"] (some dW8b)).2.1.length := by decide

/-- Witness for the amended C8 on a concrete mixed tier. -/
theorem C8_witness :
    (⟨"validation_error", "error", "a",
      "unsupported resource type: " ++ (nodeW "a" "foo").typ,
      unsupSuggestion⟩ : Error) ∈
      (Parse regToy tmplW ["a", "b"] schedW ⟨true, 0⟩ (some dW8b)).1.errors ∧
    (Parse regToy tmplW ["a", "b"] schedW ⟨true, 0⟩ (some dW8b)).1.success = false ∧
    (∀ p ∈ launchedUnits regToy dW8b
        ((Resolve ["a", "b"] (some dW8b)).2.1.get ⟨0, dW8b_tier_len⟩),
      p.1.id ≠ "a") :=
  C8_unsupported_kind_behaviour regToy tmplW ["a", "b"] schedW ⟨true, 0⟩ dW8b
    (by rfl) (by rfl) 0 dW8b_tier_len "a" (nodeW "a" "foo") (by decide) (by rfl)
    (by rfl)

end JsonToTerraform
